import Mathlib

/-!
Verification development for the Algo-info fuzzy knowledge-matching chatbot.

The repository has two generations of the engine:
* `src/V2/chat.py` — the grouped model: a SQLite-backed store of groups,
  trigger questions and answers, a `difflib`-based matcher and a Flask API.
* `src/chatbot.py` / `src/main.py` — the flat model: a JSON knowledge list
  with typed entries (fact/concept/rule/instruction/association/example/phrase),
  an arithmetic shortcut, and fuzzy phrase/example matching.

This file gives a shallow embedding of both, faithful to the Python source.
Strings are modelled as Lean `String`/`List Char`; similarity scores are exact
rationals (ℚ), where CPython uses double-precision floats.  All the ratio
computations in the source produce small fractions `2*M/T` whose comparisons
against the cutoffs 0.4/0.5 used by the code are exact in double precision,
so modelling scores as rationals preserves every comparison the code makes.

Scope notes on library modelling (each is also noted at its definition):
* Python's Unicode-aware `\w`/`\s`/`lower()` are modelled at ASCII precision
  (`Char.isAlphanum`, ASCII whitespace, `Char.toLower`); every input exercised
  by a claim is ASCII, where the model is exact.
* `difflib.SequenceMatcher` is modelled in full, including the `autojunk`
  "popular element" rule (active when the second sequence has length ≥ 200)
  and the b-junk-free extension loops (no `isjunk` argument is ever passed,
  so `bjunk` is always empty in this program).
-/

namespace AlgoInfo

/-! ### Normalizer — `normalize_text` (src/V2/chat.py lines 18-27)

`_punct_re = [^\w\s]` deletes every character that is neither a word
character nor whitespace; `_space_re = \s+` collapses whitespace runs.
Python's `\w` is `[a-zA-Z0-9_]` plus non-ASCII word characters; this model
is ASCII-exact (non-ASCII word/space classification and non-ASCII lowering
are not modelled; no claim exercises non-ASCII input).  Note that `\w`
KEEPS the underscore: `normalize_text` does not strip `'_'`. -/

def isWordChar (c : Char) : Bool :=
  c.isAlphanum || c = '_'

/-- ASCII whitespace, the characters Python's `\s` matches in ASCII range
(space, tab, newline, carriage return, vertical tab, form feed). -/
def isSpaceChar (c : Char) : Bool :=
  c = ' ' || c = '\t' || c = '\n' || c = '\r' || c = '\x0b' || c = '\x0c'

/-- Collapse every run of whitespace characters into a single `' '`
(the effect of `_space_re.sub(' ', text)`). -/
def collapseSpaces : List Char → List Char
  | [] => []
  | c :: rest =>
    let tail := collapseSpaces rest
    if isSpaceChar c then
      if tail.head? = some ' ' then tail else ' ' :: tail
    else c :: tail

/-- Drop leading spaces (after `collapseSpaces` the only whitespace left is `' '`,
so Python's `.strip()` reduces to trimming `' '`). -/
def dropLeadSpaces (l : List Char) : List Char := l.dropWhile (fun c => c = ' ')

def trimSpaces (l : List Char) : List Char :=
  (dropLeadSpaces ((dropLeadSpaces l.reverse)).reverse)

/-- `normalize_text` on a present string: lower-case, delete characters that are
neither word characters nor whitespace, collapse whitespace runs to one space,
strip. -/
def normalize (s : String) : String :=
  ⟨trimSpaces (collapseSpaces ((s.data.map Char.toLower).filter
      (fun c => isWordChar c || isSpaceChar c)))⟩

/-- `normalize_text` including the `None` guard (`if text is None: return ''`). -/
def normalizeText (s : Option String) : String :=
  match s with
  | none => ""
  | some s => normalize s

example : normalize "Hello,  World!" = "hello world" := by decide
example : normalize "_" = "_" := by decide
example : normalize "!" = "" := by decide
example : normalize "  A\t\nB  " = "a b" := by decide
example : normalizeText none = "" := by decide

/-! ### `difflib.SequenceMatcher` model (CPython standard library)

`similarity` (src/V2/chat.py lines 112-120) calls
`SequenceMatcher(None, a_n, b_n).ratio()` and `find_best_matches_for_message`
calls `difflib.get_close_matches`.  We embed the library algorithm:

* `__chain_b` builds `b2j : element → ascending positions in b`; with
  `autojunk=True` (the default, and no `isjunk` is ever supplied by this
  program) an element is *popular* when `len(b) >= 200` and it occurs more
  than `len(b) // 100 + 1` times; popular elements are removed from `b2j`
  (they go into `bpopular`, NOT into `bjunk`, which stays empty here).
* `find_longest_match` runs the j2len dynamic program over the window,
  keeping the first strictly-maximal block, then extends the block left and
  right while adjacent elements are equal.  The source has two further
  extension loops guarded by `isbjunk`; since `bjunk` is always empty in
  this program those loops never execute and are omitted.
* `get_matching_blocks` recursively splits the window around the longest
  match; `ratio` is `2*M/T` where `M` is the total size of the blocks and
  `T = len(a) + len(b)` (`1.0` when `T = 0`).  The Python version collects
  blocks via an explicit stack and then sorts and merges adjacent blocks;
  neither step changes the total `M`, which is all `ratio` reads.
-/

def charAt (l : List Char) (i : Nat) : Char := l.getD i ' '

/-- Ascending list of positions of `c` in `b` (the `b2j` entry before junk
removal). -/
def occurrences (b : List Char) (c : Char) : List Nat :=
  (List.range b.length).filter (fun j => charAt b j = c)

/-- The `autojunk` popularity test of `SequenceMatcher.__chain_b`. -/
def isPopular (b : List Char) (c : Char) : Bool :=
  200 ≤ b.length && b.length / 100 + 1 < b.count c

/-- `b2j` after autojunk: positions of `c` in `b`, or `[]` for popular `c`. -/
def b2j (b : List Char) (c : Char) : List Nat :=
  if isPopular b c then [] else occurrences b c

/-- The running best block of `find_longest_match`: `besti, bestj, bestsize`. -/
structure Best where
  i : Nat
  j : Nat
  size : Nat
deriving Repr, DecidableEq

/-- One inner-loop step of `find_longest_match`: given the previous row
`prev` (`j2len` for sweep `i-1`), record `newj2len[j] = prev[j-1] + 1` and
update the best block when strictly larger (`if k > bestsize`). -/
def processJ (i : Nat) (prev : Nat → Nat) (st : (Nat → Nat) × Best) (j : Nat) :
    (Nat → Nat) × Best :=
  let k := match j with
    | 0 => 1
    | jj + 1 => prev jj + 1
  let nj := Function.update st.1 j k
  let best := if st.2.size < k then ⟨i + 1 - k, j + 1 - k, k⟩ else st.2
  (nj, best)

/-- The sweep over one `i` of `find_longest_match`: iterate the in-window
positions of `a[i]` in ascending order (the `continue`/`break` pair in the
source is equivalent to this filter because `b2j` lists are ascending),
building the new `j2len` row from a fresh empty row. -/
def sweepI (a b : List Char) (blo bhi : Nat) (st : (Nat → Nat) × Best) (i : Nat) :
    (Nat → Nat) × Best :=
  let js := (b2j b (charAt a i)).filter (fun j => blo ≤ j && j < bhi)
  js.foldl (fun acc j => processJ i st.1 acc j) ((fun _ => 0), st.2)

/-- The dynamic program of `find_longest_match` before the extension loops:
initial best is `(alo, blo, 0)`. -/
def dpBest (a b : List Char) (alo ahi blo bhi : Nat) : Best :=
  ((List.range' alo (ahi - alo)).foldl (sweepI a b blo bhi)
    ((fun _ => 0), ⟨alo, blo, 0⟩)).2

/-- The first extension loop: while `besti > alo and bestj > blo and
a[besti-1] == b[bestj-1]`, grow the block one step to the left.  (The
`isbjunk` conjunct of the source is omitted: `bjunk` is empty.) -/
def extLeft (a b : List Char) (alo blo : Nat) : Nat → Nat → Nat → Best
  | 0, bj, sz => ⟨0, bj, sz⟩
  | bi + 1, bj, sz =>
    if alo < bi + 1 ∧ blo < bj ∧ charAt a bi = charAt b (bj - 1) then
      extLeft a b alo blo bi (bj - 1) (sz + 1)
    else ⟨bi + 1, bj, sz⟩

/-- The second extension loop: while `besti+bestsize < ahi and
bestj+bestsize < bhi and a[besti+bestsize] == b[bestj+bestsize]`, grow the
block to the right.  `fuel` only bounds the recursion; the guard
`bi + sz < ahi` fails before fuel `ahi` is exhausted, so the result does not
depend on the fuel (proved below). -/
def extRight (a b : List Char) (ahi bhi bi bj : Nat) : Nat → Nat → Nat
  | 0, sz => sz
  | fuel + 1, sz =>
    if bi + sz < ahi ∧ bj + sz < bhi ∧ charAt a (bi + sz) = charAt b (bj + sz) then
      extRight a b ahi bhi bi bj fuel (sz + 1)
    else sz

/-- `find_longest_match(alo, ahi, blo, bhi)` (junk loops omitted — vacuous). -/
def findLongestMatch (a b : List Char) (alo ahi blo bhi : Nat) : Best :=
  let d := dpBest a b alo ahi blo bhi
  let e := extLeft a b alo blo d.i d.j d.size
  ⟨e.i, e.j, extRight a b ahi bhi e.i e.j ahi e.size⟩

/-- Total size `M` of the matching blocks of the window, by recursion around
the longest match (`get_matching_blocks`; stack order, sorting and merging
of adjacent blocks do not affect the total).  `fuel ≥ ahi - alo` is enough
(each recursive window is strictly shorter); callers pass `ahi + 1`. -/
def matchTotalF (a b : List Char) : Nat → Nat → Nat → Nat → Nat → Nat
  | 0, _, _, _, _ => 0
  | fuel + 1, alo, ahi, blo, bhi =>
    let m := findLongestMatch a b alo ahi blo bhi
    if m.size = 0 then 0
    else
      m.size +
        (if alo < m.i ∧ blo < m.j then matchTotalF a b fuel alo m.i blo m.j else 0) +
        (if m.i + m.size < ahi ∧ m.j + m.size < bhi then
          matchTotalF a b fuel (m.i + m.size) ahi (m.j + m.size) bhi else 0)

/-- Total matching size over the whole strings. -/
def matchTotal (a b : List Char) : Nat :=
  matchTotalF a b (a.length + 1) 0 a.length 0 b.length

/-! CPython compares ratios as double-precision floats.  All scores in this
program are fractions `2*M/T` with tiny numerators and denominators, and all
comparisons between such fractions (and against the cutoffs 0.4/0.5/0.7) are
exact in doubles, so the order structure is that of exact rationals.  For
executability we carry each score as a `(numerator, denominator)` pair of
naturals (denominator always positive) and compare by cross-multiplication;
`ratioQ` below is the same score as an actual rational, for the statements. -/

/-- `ratio()` as a numerator/denominator pair (denominator positive).
`_calculate_ratio(matches, length)` returns `2.0*matches/length`, or `1.0`
when `length` is zero. -/
def ratioPair (a b : List Char) : Nat × Nat :=
  if a.length + b.length = 0 then (1, 1)
  else (2 * matchTotal a b, a.length + b.length)

/-- `SequenceMatcher(None, a, b).ratio()` as an exact rational. -/
def ratioQ (a b : List Char) : ℚ :=
  ((ratioPair a b).1 : ℚ) / ((ratioPair a b).2 : ℚ)

/-- Cross-multiplication comparison of score pairs: `p ≤ q` as fractions. -/
def pairLe (p q : Nat × Nat) : Bool := p.1 * q.2 ≤ q.1 * p.2

/-- Cross-multiplication strict comparison of score pairs. -/
def pairLt (p q : Nat × Nat) : Bool := p.1 * q.2 < q.1 * p.2

/-- Cross-multiplication equality of score pairs (equality as fractions). -/
def pairEq (p q : Nat × Nat) : Bool := p.1 * q.2 = q.1 * p.2

/-- `similarity(a, b)` (src/V2/chat.py lines 112-120) as a score pair.
`if not a and not b` is the both-empty test (the only falsy strings are the
empty ones; `None` arguments never reach `similarity` from the routes).
`normalize_text(a or '')` equals `normalize a` because `normalize "" = ""`.
-/
def similarityPair (a b : String) : Nat × Nat :=
  if a = "" ∧ b = "" then (1, 1)
  else
    let an := normalize a
    let bn := normalize b
    if an = "" ∨ bn = "" then (0, 1)
    else ratioPair an.data bn.data

/-- `similarity(a, b)` as an exact rational. -/
def similarity (a b : String) : ℚ :=
  ((similarityPair a b).1 : ℚ) / ((similarityPair a b).2 : ℚ)

/-- Score used by `get_close_matches`: the matcher is seeded with
`set_seq2(word); set_seq1(x)`, i.e. `SequenceMatcher(None, x, word).ratio()`
— `b`, and hence the autojunk analysis, is the query word. -/
def scorePair (word x : String) : Nat × Nat := ratioPair x.data word.data

/-- The same score as an exact rational, for statements. -/
def scoreOf (word x : String) : ℚ := ratioQ x.data word.data

/-- Lexicographic code-point comparison of character lists — Python's
string `<`. -/
def strListLt : List Char → List Char → Bool
  | [], [] => false
  | [], _ :: _ => true
  | _ :: _, [] => false
  | a :: as, b :: bs =>
    if a.toNat < b.toNat then true
    else if b.toNat < a.toNat then false
    else strListLt as bs

/-- Python string `<`. -/
def strLtB (a b : String) : Bool := strListLt a.data b.data

/-- Python string `<=` (the total order makes it `¬(b < a)`). -/
def strLeB (a b : String) : Bool := !strLtB b a

/-- `difflib.get_close_matches(word, possibilities, n=1, cutoff)`:
keep the possibilities whose ratio reaches the cutoff (the
`real_quick_ratio`/`quick_ratio` conjuncts in the source are upper bounds
of `ratio()`, so this pre-filter never changes the surviving set) and return
the largest surviving `(score, x)` pair under the tuple order — score first,
then the string itself — which is what `heapq._nlargest(1, result)`
computes via `max`; `max` keeps the first of equal elements, and equal
`(score, x)` pairs only arise from duplicated possibilities. -/
def getCloseMatches1 (word : String) (poss : List String) (cutoff : Nat × Nat) :
    Option String :=
  match poss.filter (fun x => pairLe cutoff (scorePair word x)) with
  | [] => none
  | c :: cs =>
    some (cs.foldl (fun best x =>
      if pairLt (scorePair word best) (scorePair word x) ||
          (pairEq (scorePair word best) (scorePair word x) && strLtB best x)
      then x else best) c)

example : ratioPair "abcd".data "abcd".data = (8, 8) := by decide
example : ratioPair "abcd".data "bcde".data = (6, 8) := by decide
example : ratioPair "".data "ab".data = (0, 2) := by decide
example : ratioPair "".data "".data = (1, 1) := by decide
example : similarityPair "!" "!" = (0, 1) := by decide
example : similarityPair "Hello" "hello!" = (10, 10) := by decide
example : getCloseMatches1 "hello ther" ["hello", "banana"] (1, 2) = some "hello" := by
  decide

/-! ### Segmenter — `split_paragraphs` / `split_into_sentences`
(src/V2/chat.py lines 50-64)

`split_paragraphs` splits the stripped text on `\r?\n\s*\r?\n` (one or more
blank-ish lines), right-strips each part and drops blank parts.
`split_into_sentences` returns the trimmed text whole when it contains no
terminal punctuation (`. ? ! ; :`), else splits on `(?<=[.?!;:])\s+`.

The regex engine is modelled directly: a separator match of
`\r?\n\s*\r?\n` at a position is an optional `\r`, a `\n`, then (by greedy
backtracking) everything up to and including the *last* `\n` of the maximal
whitespace run that follows; a `(?<=[.?!;:])\s+` match is a maximal
whitespace run immediately preceded by a terminal-punctuation character.
The recursions below use a fuel argument (the remaining length bounds the
number of steps) so that they stay structurally recursive and computable by
the kernel. -/

def pyStrip (l : List Char) : List Char :=
  ((l.dropWhile isSpaceChar).reverse.dropWhile isSpaceChar).reverse

def pyRstrip (l : List Char) : List Char :=
  (l.reverse.dropWhile isSpaceChar).reverse

/-- Length of the `\r?\n\s*\r?\n` match starting exactly here, if any:
skip an optional `\r`, require a `\n`, then take the maximal whitespace run
and end just after its last `\n` (if it has one). -/
def sepMatch (l : List Char) : Option Nat :=
  let (pre, after) :=
    match l with
    | '\r' :: '\n' :: rest => (some 2, rest)
    | '\n' :: rest => (some 1, rest)
    | _ => (none, l)
  match pre with
  | none => none
  | some k =>
    let run := after.takeWhile isSpaceChar
    match (run.enum.filter (fun p => p.2 = '\n')).getLast? with
    | some (p, _) => some (k + p + 1)
    | none => none

/-- `re.split(r'\r?\n\s*\r?\n', ·)`: cut at each leftmost separator match. -/
def splitBlankAux : Nat → List Char → List Char → List (List Char)
  | 0, _, acc => [acc.reverse]
  | _ + 1, [], acc => [acc.reverse]
  | fuel + 1, l@(c :: rest), acc =>
    match sepMatch l with
    | some k => acc.reverse :: splitBlankAux fuel (l.drop k) []
    | none => splitBlankAux fuel rest (c :: acc)

/-- `split_paragraphs(text)`. -/
def splitParagraphs (s : String) : List String :=
  if s = "" then []
  else
    let t := pyStrip s.data
    ((splitBlankAux (t.length + 1) t []).filter (fun p => pyStrip p ≠ [])).map
      (fun p => ⟨pyRstrip p⟩)

def isTerminalPunct (c : Char) : Bool :=
  c = '.' || c = '?' || c = '!' || c = ';' || c = ':'

/-- `re.split(r'(?<=[.?!;:])\s+', ·)`: cut at each maximal whitespace run
that directly follows a terminal-punctuation character.  `prev` is the
character before the current position (`none` at the start). -/
def splitSentAux : Nat → Option Char → List Char → List Char → List (List Char)
  | 0, _, _, acc => [acc.reverse]
  | _ + 1, _, [], acc => [acc.reverse]
  | fuel + 1, prev, l@(c :: rest), acc =>
    if (match prev with | some p => isTerminalPunct p | none => false) &&
        isSpaceChar c then
      let run := l.takeWhile isSpaceChar
      acc.reverse :: splitSentAux fuel none (l.drop run.length) []
    else
      splitSentAux fuel (some c) rest (c :: acc)

/-- `split_into_sentences(text)`. -/
def splitIntoSentences (s : String) : List String :=
  if s = "" || !(s.data.any isTerminalPunct) then [⟨pyStrip s.data⟩]
  else
    ((splitSentAux (s.data.length + 1) none s.data []).map pyStrip).filterMap
      (fun p => if p = [] then none else some ⟨p⟩)

example : splitParagraphs "a b\n\n\nc\n" = ["a b", "c"] := by decide
example : splitParagraphs "" = [] := by decide
example : splitParagraphs " \n \n " = [] := by decide
example : splitIntoSentences "hello there" = ["hello there"] := by decide
example : splitIntoSentences "hi. there you! ok" = ["hi.", "there you!", "ok"] := by
  decide
example : splitIntoSentences ".." = [".."] := by decide

/-! ### V2 grouped knowledge store (src/V2/chat.py)

The SQLite schema (`init_db`, lines 80-109) as in-memory relational state:
`groups(id, name)`, `questions(id, question UNIQUE, question_norm, group_id)`,
`answers(id, group_id, answer, UNIQUE(group_id, answer))`.  Rows are listed
in rowid (insertion) order; `nextId` is the AUTOINCREMENT counter of
`groups` (first id is 1).  Note the UNIQUE constraint of `questions` is on
the *raw* `question` text — `question_norm` only has a non-unique index. -/

structure GroupRow where
  gid : Nat
  name : Option String
deriving Repr, DecidableEq

structure QRow where
  question : String
  qnorm : String
  gid : Nat
deriving Repr, DecidableEq

structure ARow where
  gid : Nat
  answer : String
deriving Repr, DecidableEq

structure Store where
  groups : List GroupRow
  qrows : List QRow
  arows : List ARow
  nextId : Nat
deriving Repr, DecidableEq

def emptyStore : Store := ⟨[], [], [], 1⟩

def pyStripS (s : String) : String := ⟨pyStrip s.data⟩

def toLowerStr (s : String) : String := ⟨s.data.map Char.toLower⟩

/-- The single quote character, `'`. -/
def quoteCh : Char := Char.ofNat 39

/-- `sanitize_text` (lines 30-36): drop `<ugt>&"'` characters, then strip.
(`str(text)` is the identity on the strings this model admits.) -/
def sanitizeText (s : String) : String :=
  pyStripS ⟨s.data.filter (fun c =>
    !(c = '<' || c = '>' || c = '&' || c = '"' || c = quoteCh))⟩

/-- `validate_inputs` (lines 38-48): sanitize each item, keep the non-empty
results. -/
def validateInputs (l : List String) : List String :=
  (l.map sanitizeText).filter (fun x => x ≠ "")

/-- The `inputs_raw`/`outputs_raw` union: the JSON body may carry null, a
list of strings, or one raw block of text. -/
inductive RawField where
  | null
  | list (items : List String)
  | text (s : String)
deriving Repr, DecidableEq

/-- `_ensure_inputs_list` / `_ensure_outputs_list` (lines 123-135): `None`
gives `[]`; a list keeps its members with a non-whitespace character,
right-stripped; a raw text block is paragraph-split. -/
def ensureList : RawField → List String
  | .null => []
  | .list items =>
    (items.filter (fun i => pyStrip i.data ≠ [])).map (fun i => ⟨pyRstrip i.data⟩)
  | .text s => splitParagraphs s

/-- Python truthiness of the raw field (`if not inputs and not outputs`). -/
def rawFalsy : RawField → Bool
  | .null => true
  | .list items => items.isEmpty
  | .text s => s = ""

/-- `INSERT OR IGNORE INTO questions (question, question_norm, group_id)`:
the UNIQUE constraint is on the raw `question`, so the insert is dropped iff
that exact text is already present (in any group). -/
def insertQ (qrows : List QRow) (q qnorm : String) (gid : Nat) : List QRow :=
  if qrows.any (fun r => r.question = q) then qrows
  else qrows ++ [⟨q, qnorm, gid⟩]

/-- `INSERT OR IGNORE INTO answers (group_id, answer)`: UNIQUE on the pair.
-/
def insertA (arows : List ARow) (gid : Nat) (ans : String) : List ARow :=
  if arows.any (fun r => r.gid = gid && r.answer = ans) then arows
  else arows ++ [⟨gid, ans⟩]

/-- Insert the sentences of one validated input paragraph (the body of the
`for para in inputs_list` loop of `create_group`/`update_group`; its
`len(sentences) == 1` and else branches both insert each stripped non-empty
sentence). -/
def insertParaSentences (qrows : List QRow) (gid : Nat) (para : String) :
    List QRow :=
  (splitIntoSentences para).foldl (fun qs sent =>
    let q := pyStripS sent
    if q = "" then qs else insertQ qs q (normalize q) gid) qrows

/-- `create_group(name, inputs_raw, outputs_raw)` (lines 137-179); returns
the new store and `cur.lastrowid`.  `sanitize_text(name) if name else None`
stores `NULL` for a falsy name. -/
def createGroup (s : Store) (name : String) (inRaw outRaw : RawField) :
    Store × Nat :=
  let sname := if name = "" then none else some (sanitizeText name)
  let ins := validateInputs (ensureList inRaw)
  let outs := validateInputs (ensureList outRaw)
  let gid := s.nextId
  let qrows := ins.foldl (fun qs para => insertParaSentences qs gid para) s.qrows
  let arows := outs.foldl (fun az o =>
    if pyStripS o = "" then az else insertA az gid o) s.arows
  (⟨s.groups ++ [⟨gid, sname⟩], qrows, arows, gid + 1⟩, gid)

/-- `update_group(gid, name, inputs_raw, outputs_raw)` (lines 181-221):
update the name row (a no-op when the id is absent), delete the group's
question/answer rows, then insert the new ones — note the inserts happen
whether or not a group row with this id exists. -/
def updateGroup (s : Store) (gid : Nat) (name : String)
    (inRaw outRaw : RawField) : Store :=
  let sname := if name = "" then none else some (sanitizeText name)
  let ins := validateInputs (ensureList inRaw)
  let outs := validateInputs (ensureList outRaw)
  let groups := s.groups.map (fun g => if g.gid = gid then ⟨g.gid, sname⟩ else g)
  let q1 := s.qrows.filter (fun r => r.gid ≠ gid)
  let qrows := ins.foldl (fun qs para => insertParaSentences qs gid para) q1
  let a1 := s.arows.filter (fun r => r.gid ≠ gid)
  let arows := outs.foldl (fun az o =>
    if pyStripS o = "" then az else insertA az gid o) a1
  ⟨groups, qrows, arows, s.nextId⟩

/-- `delete_group(gid)` (lines 223-229). -/
def deleteGroup (s : Store) (gid : Nat) : Store :=
  ⟨s.groups.filter (fun g => g.gid ≠ gid),
    s.qrows.filter (fun r => r.gid ≠ gid),
    s.arows.filter (fun r => r.gid ≠ gid),
    s.nextId⟩

/-- The dict shape assembled by `get_all_groups`/`get_group_by_id`
(inputs/outputs in rowid order). -/
structure GroupView where
  gid : Nat
  name : Option String
  inputs : List String
  outputs : List String
deriving Repr, DecidableEq

def groupView (s : Store) (g : GroupRow) : GroupView :=
  ⟨g.gid, g.name,
    (s.qrows.filter (fun r => r.gid = g.gid)).map (fun r => r.question),
    (s.arows.filter (fun r => r.gid = g.gid)).map (fun r => r.answer)⟩

/-- `get_all_groups` (lines 231-247): `ORDER BY id DESC` (ids are unique,
so any stable sort gives SQLite's order). -/
def getAllGroups (s : Store) : List GroupView :=
  (List.insertionSort (fun g h => h.gid ≤ g.gid) s.groups).map (groupView s)

/-- `get_group_by_id` (lines 249-264). -/
def getGroupById (s : Store) (gid : Nat) : Option GroupView :=
  (s.groups.find? (fun g => g.gid = gid)).map (groupView s)

/-! ### Matching pipeline (src/V2/chat.py lines 267-345) -/

/-- The `norm_map` dict of `find_best_matches_for_message` (lines 283-290):
first-seen `(group_id, question)` per non-empty `question_norm`, in row
order (dict insertion order = first-occurrence order). -/
def normMapList (qrows : List QRow) : List (String × Nat × String) :=
  qrows.foldl (fun m r =>
    if r.qnorm = "" || m.any (fun e => e.1 = r.qnorm) then m
    else m ++ [(r.qnorm, r.gid, r.question)]) []

/-- The flat ordered piece list of a message: paragraphs, then sentences,
keeping stripped non-empty pieces in document order (lines 271-278). -/
def piecesOf (msg : String) : List String :=
  (splitParagraphs msg).flatMap (fun para =>
    (splitIntoSentences para).filterMap (fun x =>
      let t := pyStripS x
      if t = "" then none else some t))

/-- `find_best_matches_for_message(user_message)` (lines 267-304): per
piece, `get_close_matches(user_norm, norm_list, n=1, cutoff=0.5)`; an empty
message yields `[]`, an empty trigger index leaves every piece unmatched.
The Python triple `(piece, gid, orig_q)` with `None, None` for no match is
the pair with an `Option` here. -/
def findBestMatches (s : Store) (msg : String) :
    List (String × Option (Nat × String)) :=
  if msg = "" then []
  else
    let nm := normMapList s.qrows
    let keys := nm.map (fun e => e.1)
    (piecesOf msg).map (fun piece =>
      if keys.isEmpty then (piece, none)
      else
        match getCloseMatches1 (normalize piece) keys (1, 2) with
        | some bestKey => (piece, (nm.find? (fun e => e.1 = bestKey)).map (fun e => e.2))
        | none => (piece, none))

/-- `get_random_answer_for_group(gid)` (lines 306-317).  `random.choice`
picks a uniformly random index; the draw is modelled by the oracle `pick`,
reduced modulo the number of answers. -/
def getRandomAnswerForGroup (s : Store) (gid : Nat) (pick : Nat) :
    Option String :=
  let ans := (s.arows.filter (fun r => r.gid = gid)).map (fun r => r.answer)
  match ans with
  | [] => none
  | a :: rest => some ((a :: rest).getD (pick % (a :: rest).length) a)

inductive ChatResp where
  | err (msg : String)
  | ok (reply : String)
deriving Repr, DecidableEq

/-- The fixed fallback sentence for an unmatched piece. -/
def unmatchedMsg : String := "I don't know that yet. Add it in Q&A."

/-- The fixed sentence for a matched group without answers. -/
def noAnswerMsg : String := "I know that question but don't have answers yet."

/-- `api_chat` (lines 324-345).  `msg = (data.get('message') or '').strip()`;
the additional `re.search(r'\S', msg)` test is subsumed by non-emptiness of
the stripped text.  One oracle value per piece models the independent
`random.choice` draws.  `if gid:` is Python truthiness, hence the `gid ≠ 0`
test; `if answer:` likewise treats an empty answer string as missing. -/
def apiChat (s : Store) (message : Option String) (pick : Nat → Nat) : ChatResp :=
  let msg := pyStripS (message.getD "")
  if msg = "" then .err "Empty message"
  else
    let found := findBestMatches s msg
    let replies := found.enum.map (fun pr =>
      match pr.2.2 with
      | some (gid, _) =>
        if gid ≠ 0 then
          match getRandomAnswerForGroup s gid (pick pr.1) with
          | some a => if a = "" then noAnswerMsg else a
          | none => noAnswerMsg
        else unmatchedMsg
      | none => unmatchedMsg)
    .ok (String.intercalate "\n\n" replies)

inductive GroupsResp where
  | err (msg : String)
  | ok (groups : List GroupView)
deriving Repr, DecidableEq

/-- `api_groups` POST branch (lines 354-369): name is stripped, a request
with falsy `inputs` and `outputs` is rejected before any mutation. -/
def apiGroupsCreate (s : Store) (name : Option String)
    (inputs outputs : RawField) : Store × GroupsResp :=
  let nm := pyStripS (name.getD "")
  if rawFalsy inputs && rawFalsy outputs then
    (s, .err "At least one input or output is required")
  else
    let (s2, gid) := createGroup s nm inputs outputs
    (s2, .ok ((getGroupById s2 gid).toList))

/-- Best in-scope score of one group for `api_groups` GET (lines 380-397):
`max` over the scope's `similarity(q, ·)` scores, starting from `0.0`. -/
def bestScore (q : String) (scope : String) (g : GroupView) : Nat × Nat :=
  let pmax := fun (p r : Nat × Nat) => if pairLt p r then r else p
  let nameScore := similarityPair q (g.name.getD "")
  let overIn := fun (p : Nat × Nat) => g.inputs.foldl (fun acc i => pmax acc (similarityPair q i)) p
  let overOut := fun (p : Nat × Nat) => g.outputs.foldl (fun acc o => pmax acc (similarityPair q o)) p
  if scope = "group" then pmax (0, 1) nameScore
  else if scope = "input" then overIn (0, 1)
  else if scope = "output" then overOut (0, 1)
  else overOut (overIn (pmax (0, 1) nameScore))

/-- Comparison of two score pairs as values (`p ≤ q`): the guarded form is
a total preorder on all of `Nat × Nat` (a zero denominator — which the
positive-denominator scores of `bestScore` never produce, so on them this
is exactly `pairLe` — compares as `+∞`), so sorting with it is covered by
`List.sorted_insertionSort`. -/
def scoreLe (p q : Nat × Nat) : Bool :=
  if q.2 = 0 then true
  else if p.2 = 0 then false
  else p.1 * q.2 ≤ q.1 * p.2

/-- `api_groups` GET branch (lines 371-403): empty filter returns all
groups; otherwise score every group in the chosen scope, sort by descending
score (Python's `sorted` is stable) and keep the scores reaching the single
`THRESHOLD = 0.4`. -/
def apiGroupsFilter (s : Store) (filt scope : Option String) : GroupsResp :=
  let q := pyStripS (filt.getD "")
  let sc := toLowerStr (scope.getD "group")
  let groups := getAllGroups s
  if q = "" then .ok groups
  else
    let scored := groups.map (fun g => (bestScore q sc g, g))
    let sorted := List.insertionSort (fun x y => scoreLe y.1 x.1 = true) scored
    .ok ((sorted.filter (fun x => pairLe (2, 5) x.1)).map (fun x => x.2))

/-- The best in-scope score as an exact rational, for statements. -/
def bestScoreQ (q scope : String) (g : GroupView) : ℚ :=
  ((bestScore q scope g).1 : ℚ) / ((bestScore q scope g).2 : ℚ)

inductive ItemResp where
  | ok
  | errDb
deriving Repr, DecidableEq

/-- `api_group_item` PATCH (lines 405-416): always replies `{'ok': True}`
unless the database raises (out of scope for this model: the embedded
`update_group` is total). -/
def apiGroupPatch (s : Store) (gid : Nat) (name : Option String)
    (inputs outputs : RawField) : Store × ItemResp :=
  (updateGroup s gid (pyStripS (name.getD "")) inputs outputs, .ok)

/-- `api_group_item` DELETE (lines 417-421): always replies `{'ok': True}`.
-/
def apiGroupDelete (s : Store) (gid : Nat) : Store × ItemResp :=
  (deleteGroup s gid, .ok)

/-! ### Arithmetic shortcut — `try_math` (src/chatbot.py lines 28-46,
identical in src/main.py lines 25-44)

The word-to-symbol rewriting runs over the lower-cased input in Python dict
insertion order (plus, minus, times, x, divided by); `str.replace` replaces
all non-overlapping occurrences left to right, which is what
`String.replace` does.  If the rewritten text fully matches
`[0-9+\-*/ ().]+` it is passed to `eval(text, {"__builtins__": {}})`; any
exception (syntax error, division by zero, ...) is swallowed and `None` is
returned.

The expressions the character class admits are numeric literals and the
operators `+ - * / // ** ( )` with unary signs (`**` and `//` arise from
adjacent `*`/`/` characters).  The evaluator below implements CPython's
grammar and integer/float arithmetic over exact rationals:
* `/` is true division (always a float), `//` is floor division, `**` is
  right-associative and binds tighter than unary minus on its left;
* decimal integer literals may not have leading zeros (`010` is a syntax
  error, `00` is 0); float literals (`2.`, `.5`, `0.50`) may;
* division and floor-division by zero, and `0 ** negative`, raise.
Two knowingly unreachable divergences from CPython, confined to inputs no
claim (and no theorem below) touches: a float result is kept as an exact
rational where CPython rounds to binary64 and prints the shortest
round-tripping decimal (integral floats print identically as `n.0`), and a
fractional exponent fails here where CPython computes a float/complex
power. -/

/-- Python `str.replace`: replace every non-overlapping occurrence of `pat`
left to right.  (The patterns used here are never empty; on an empty
pattern this returns the text unchanged.) -/
def replaceAllAux (pat rep : List Char) : Nat → List Char → List Char
  | 0, l => l
  | _ + 1, [] => []
  | fuel + 1, c :: rest =>
    if pat ≠ [] ∧ pat.isPrefixOf (c :: rest) then
      rep ++ replaceAllAux pat rep fuel ((c :: rest).drop pat.length)
    else c :: replaceAllAux pat rep fuel rest

def replaceStr (s pat rep : String) : String :=
  ⟨replaceAllAux pat.data rep.data (s.data.length + 1) s.data⟩

def applyReplacements (s : String) : String :=
  replaceStr (replaceStr (replaceStr (replaceStr (replaceStr (toLowerStr s)
    "plus" "+") "minus" "-") "times" "*") "x" "*") "divided by" "/"

def mathCharOk (c : Char) : Bool :=
  c.isDigit || c = '+' || c = '-' || c = '*' || c = '/' || c = ' ' ||
    c = '(' || c = ')' || c = '.'

/-- A Python number: an `int`, or a `float` kept as an exact fraction
(`den > 0` by construction). -/
inductive PyNum where
  | int (n : Int)
  | flt (num : Int) (den : Int)
deriving Repr, DecidableEq

namespace PyNum

def toPair : PyNum → Int × Int
  | int n => (n, 1)
  | flt n d => (n, d)

def isFloat : PyNum → Bool
  | int _ => false
  | flt _ _ => true

def mkFlt (n d : Int) : PyNum :=
  if d < 0 then flt (-n) (-d) else flt n d

def add (a b : PyNum) : PyNum :=
  match a, b with
  | int x, int y => int (x + y)
  | _, _ =>
    let (xn, xd) := a.toPair
    let (yn, yd) := b.toPair
    mkFlt (xn * yd + yn * xd) (xd * yd)

def sub (a b : PyNum) : PyNum :=
  match a, b with
  | int x, int y => int (x - y)
  | _, _ =>
    let (xn, xd) := a.toPair
    let (yn, yd) := b.toPair
    mkFlt (xn * yd - yn * xd) (xd * yd)

def mul (a b : PyNum) : PyNum :=
  match a, b with
  | int x, int y => int (x * y)
  | _, _ =>
    let (xn, xd) := a.toPair
    let (yn, yd) := b.toPair
    mkFlt (xn * yn) (xd * yd)

def isZero (a : PyNum) : Bool :=
  (a.toPair).1 = 0

/-- True division: always a float; `ZeroDivisionError` on a zero divisor. -/
def div (a b : PyNum) : Option PyNum :=
  if b.isZero then none
  else
    let (xn, xd) := a.toPair
    let (yn, yd) := b.toPair
    some (mkFlt (xn * yd) (xd * yn))

/-- Floor division: `int // int` is an `int`, any float operand gives the
floor as a float; `ZeroDivisionError` on a zero divisor. -/
def fdiv (a b : PyNum) : Option PyNum :=
  if b.isZero then none
  else
    match a, b with
    | int x, int y => some (int (Int.fdiv x y))
    | _, _ =>
      let (xn, xd) := a.toPair
      let (yn, yd) := b.toPair
      let n := xn * yd
      let d := xd * yn
      let d' := if d < 0 then -d else d
      let n' := if d < 0 then -n else n
      some (flt (Int.fdiv n' d') 1)

def neg : PyNum → PyNum
  | int n => int (-n)
  | flt n d => flt (-n) d

/-- Power with an integer exponent value (`k`).  A negative exponent gives a
float (and raises on a zero base); fractional exponents are handled by the
caller. -/
def powInt (a : PyNum) (k : Int) (resultFloat : Bool) : Option PyNum :=
  if 0 ≤ k then
    let m := k.toNat
    match a, resultFloat with
    | int x, false => some (int (x ^ m))
    | _, _ =>
      let (xn, xd) := a.toPair
      some (mkFlt (xn ^ m) (xd ^ m))
  else
    if a.isZero then none
    else
      let m := (-k).toNat
      let (xn, xd) := a.toPair
      some (mkFlt (xd ^ m) (xn ^ m))

/-- `**`: integral exponents only; a float exponent with integral value
behaves like the integer but forces a float result. -/
def pow (a b : PyNum) : Option PyNum :=
  match b with
  | int k => a.powInt k a.isFloat
  | flt n d => if n % d = 0 then a.powInt (n / d) true else none

/-- Decimal digit string of a natural number `n` scaled to `digits` decimal
places: returns `(integer part, fractional digits with trailing zeros
stripped)`. -/
def decParts (n : Nat) (digits : Nat) : String × String :=
  let p := 10 ^ digits
  let ip := n / p
  let fracDigits := (List.range digits).map (fun i =>
    Char.ofNat (48 + n / 10 ^ i % 10))
  let frac := (fracDigits.dropWhile (fun c => c = '0')).reverse
  (toString ip, if frac.isEmpty then "0" else ⟨frac⟩)

/-- `str()` of the result.  Integers print exactly.  A float whose reduced
denominator is of the form `2^a * 5^b` has an exact, short decimal
expansion, which is exactly what CPython's shortest-round-trip `str` prints
for the values reachable here (`n.0` for integral ones); any other float is
printed as an exact fraction — a noted divergence from CPython (which
prints the 17-digit shortest round trip of the rounded double) that no
theorem in this file relies on.  (A second such unreachable artifact: IEEE
negative zero prints as `-0.0` in CPython; the exact model has one zero.)
-/
def pMult (p : Nat) : Nat → Nat → Nat
  | 0, _ => 0
  | fuel + 1, m => if m % p = 0 && 0 < m then 1 + pMult p fuel (m / p) else 0

def render : PyNum → String
  | int n => toString n
  | flt n d =>
    let g := Int.gcd n d
    let n' := n / (g : Int)
    let d' := (d / (g : Int)).toNat
    let a := pMult 2 64 d'
    let b := pMult 5 64 d'
    if d' = 2 ^ a * 5 ^ b then
      let k := max a b
      let scaled := n'.natAbs * (10 ^ k / d')
      let (ip, fr) := decParts scaled k
      (if n' < 0 then "-" else "") ++ ip ++ "." ++ fr
    else toString n' ++ "/" ++ toString d'

end PyNum

inductive MTok where
  | num (n : PyNum)
  | plus
  | minus
  | times
  | divOp
  | fdivOp
  | powOp
  | lpar
  | rpar
deriving Repr, DecidableEq

/-- Lex a numeric literal from a run of digits and dots.  CPython rejects
one with more than one dot (two juxtaposed literals), an empty digit
sequence (`.`), and a decimal integer with leading zeros (`010`; `00` is
legal and zero). -/
def lexNumber (run : List Char) : Option PyNum :=
  if run.count '.' > 1 then none
  else if !(run.any Char.isDigit) then none
  else if run.contains '.' then
    let ip := run.takeWhile (fun c => c ≠ '.')
    let fp := (run.dropWhile (fun c => c ≠ '.')).drop 1
    let digitsVal := fun (l : List Char) =>
      l.foldl (fun (acc : Int) c => acc * 10 + ((c.toNat - 48 : Nat) : Int)) 0
    some (PyNum.flt (digitsVal ip * 10 ^ fp.length + digitsVal fp)
      ((10 : Int) ^ fp.length))
  else
    match run with
    | '0' :: rest => if rest.all (fun c => c = '0') then some (PyNum.int 0) else none
    | _ => some (PyNum.int (run.foldl
        (fun (acc : Int) c => acc * 10 + ((c.toNat - 48 : Nat) : Int)) 0))

/-- Tokenizer for the rewritten arithmetic text: spaces separate tokens,
`**` and `//` lex as single operators, digit/dot runs lex as one numeral
(so `1.2.3` fails, as the juxtaposition does in CPython). -/
def lexMath : Nat → List Char → Option (List MTok)
  | 0, _ => none
  | _ + 1, [] => some []
  | fuel + 1, c :: rest =>
    if c = ' ' then lexMath fuel rest
    else if c.isDigit || c = '.' then
      let run := (c :: rest).takeWhile (fun d => d.isDigit || d = '.')
      match lexNumber run with
      | none => none
      | some n =>
        (lexMath fuel ((c :: rest).dropWhile (fun d => d.isDigit || d = '.'))).map
          (fun ts => MTok.num n :: ts)
    else if c = '+' then (lexMath fuel rest).map (MTok.plus :: ·)
    else if c = '-' then (lexMath fuel rest).map (MTok.minus :: ·)
    else if c = '*' then
      match rest with
      | '*' :: rest2 => (lexMath fuel rest2).map (MTok.powOp :: ·)
      | _ => (lexMath fuel rest).map (MTok.times :: ·)
    else if c = '/' then
      match rest with
      | '/' :: rest2 => (lexMath fuel rest2).map (MTok.fdivOp :: ·)
      | _ => (lexMath fuel rest).map (MTok.divOp :: ·)
    else if c = '(' then (lexMath fuel rest).map (MTok.lpar :: ·)
    else if c = ')' then (lexMath fuel rest).map (MTok.rpar :: ·)
    else none

/-- Recursive-descent evaluator for CPython's expression grammar restricted
to the admitted charset: `expr := term ((+|-) term)*`,
`term := unary ((*|/|//) unary)*`, `unary := (+|-) unary | power`,
`power := atom (** unary)?`, `atom := NUMBER | ( expr )`.  This gives `**`
right associativity and `-2**2 = -(2**2)`, as in CPython.  The fuel
argument strictly exceeds any possible recursion depth at the top-level
call.  `mode`: 0 = expr, 1 = term, 2 = unary, 3 = power, 4 = atom. -/
def parseEval : Nat → Nat → List MTok → Option (PyNum × List MTok)
  | 0, _, _ => none
  | fuel + 1, 0, ts =>
    match parseEval fuel 1 ts with
    | none => none
    | some (v, rest) =>
      let rec loop : Nat → PyNum → List MTok → Option (PyNum × List MTok)
        | 0, _, _ => none
        | f + 1, acc, MTok.plus :: ts2 =>
          match parseEval f 1 ts2 with
          | none => none
          | some (w, r2) => loop f (acc.add w) r2
        | f + 1, acc, MTok.minus :: ts2 =>
          match parseEval f 1 ts2 with
          | none => none
          | some (w, r2) => loop f (acc.sub w) r2
        | _ + 1, acc, ts2 => some (acc, ts2)
      loop fuel v rest
  | fuel + 1, 1, ts =>
    match parseEval fuel 2 ts with
    | none => none
    | some (v, rest) =>
      let rec loopT : Nat → PyNum → List MTok → Option (PyNum × List MTok)
        | 0, _, _ => none
        | f + 1, acc, MTok.times :: ts2 =>
          match parseEval f 2 ts2 with
          | none => none
          | some (w, r2) => loopT f (acc.mul w) r2
        | f + 1, acc, MTok.divOp :: ts2 =>
          match parseEval f 2 ts2 with
          | none => none
          | some (w, r2) =>
            match acc.div w with
            | none => none
            | some v2 => loopT f v2 r2
        | f + 1, acc, MTok.fdivOp :: ts2 =>
          match parseEval f 2 ts2 with
          | none => none
          | some (w, r2) =>
            match acc.fdiv w with
            | none => none
            | some v2 => loopT f v2 r2
        | _ + 1, acc, ts2 => some (acc, ts2)
      loopT fuel v rest
  | fuel + 1, 2, ts =>
    match ts with
    | MTok.plus :: ts2 => parseEval fuel 2 ts2
    | MTok.minus :: ts2 =>
      match parseEval fuel 2 ts2 with
      | none => none
      | some (v, r) => some (v.neg, r)
    | _ => parseEval fuel 3 ts
  | fuel + 1, 3, ts =>
    match parseEval fuel 4 ts with
    | none => none
    | some (v, rest) =>
      match rest with
      | MTok.powOp :: ts2 =>
        match parseEval fuel 2 ts2 with
        | none => none
        | some (w, r2) =>
          match v.pow w with
          | none => none
          | some v2 => some (v2, r2)
      | _ => some (v, rest)
  | fuel + 1, _, ts =>
    match ts with
    | MTok.num n :: rest => some (n, rest)
    | MTok.lpar :: rest =>
      match parseEval fuel 0 rest with
      | none => none
      | some (v, MTok.rpar :: r2) => some (v, r2)
      | some _ => none
    | _ => none

/-- `eval` of the rewritten text: lex, parse-evaluate, require the whole
token stream consumed, stringify.  `none` is any exception. -/
def evalArith (s : String) : Option String :=
  match lexMath (s.length + 1) s.data with
  | none => none
  | some ts =>
    match parseEval (4 * ts.length + 8) 0 ts with
    | some (v, []) => some v.render
    | _ => none

/-- `try_math(input_text)`. -/
def tryMath (input : String) : Option String :=
  let text := applyReplacements input
  if text ≠ "" && text.data.all mathCharOk then evalArith text
  else none

example : tryMath "2 plus 2" = some "4" := by decide
example : tryMath "10 divided by 0" = none := by decide
example : tryMath "10 divided by 4" = some "2.5" := by decide
example : tryMath "what is 2 plus 2" = none := by decide
example : tryMath "2 minus 5" = some "-3" := by decide
example : tryMath "4 divided by 2" = some "2.0" := by decide
example : tryMath "2 plus" = none := by decide
example : tryMath "(2 plus 3) times 4" = some "20" := by decide

/-! ### Flat knowledge model — typed entries (src/chatbot.py, src/main.py)

`knowledge.json` holds a list of dicts with a `type` tag.  The two
generations differ in the shape of a `phrase` entry: `chatbot.py` stores a
trigger *list* under `inputs`, `main.py` a single trigger string under
`input`.  (Both files also tolerate the other generation's key when
*reading*; entries built by each file's own training session, which is what
the typed model below admits, always carry the file's own shape.) -/

inductive SimpleTag where
  | fact
  | concept
  | rule
  | instruction
deriving Repr, DecidableEq

/-- A `chatbot.py` knowledge entry. -/
inductive CEntry where
  | simple (tag : SimpleTag) (content : String)
  | assoc (subject predicate obj : String)
  | example (input output : String)
  | phrase (inputs : List String) (outputs : List String)
deriving Repr, DecidableEq

/-- A `main.py` knowledge entry. -/
inductive MEntry where
  | simple (tag : SimpleTag) (content : String)
  | assoc (subject predicate obj : String)
  | example (input output : String)
  | phrase (input : String) (outputs : List String)
deriving Repr, DecidableEq

/-- The `for output in new_entry["outputs"]` union loop of the phrase-merge
branch: append each output not already present. -/
def mergeOutputs (outs new : List String) : List String :=
  new.foldl (fun os o => if os.contains o then os else os ++ [o]) outs

/-- Phrase branch of `add_or_merge_entry` (src/chatbot.py lines 203-217):
merge the outputs into the first phrase entry whose trigger set intersects
the new inputs, else append. -/
def addPhraseC (inputs outputs : List String) : List CEntry → List CEntry
  | [] => [.phrase inputs outputs]
  | .phrase i o :: rest =>
    if inputs.any (fun t => i.contains t) then
      .phrase i (mergeOutputs o outputs) :: rest
    else .phrase i o :: addPhraseC inputs outputs rest
  | e :: rest => e :: addPhraseC inputs outputs rest

/-- Phrase branch of `add_or_merge_entry` (src/main.py lines 217-224):
merge outputs into the first phrase entry with the same `input` string. -/
def addPhraseM (input : String) (outputs : List String) : List MEntry → List MEntry
  | [] => [.phrase input outputs]
  | .phrase i o :: rest =>
    if i = input then .phrase i (mergeOutputs o outputs) :: rest
    else .phrase i o :: addPhraseM input outputs rest
  | e :: rest => e :: addPhraseM input outputs rest

/-- Example branch (both files): upsert by exact `input` — the first
matching entry's `output` is overwritten. -/
def addExampleC (input output : String) : List CEntry → List CEntry
  | [] => [.example input output]
  | .example i o :: rest =>
    if i = input then .example i output :: rest
    else .example i o :: addExampleC input output rest
  | e :: rest => e :: addExampleC input output rest

def addExampleM (input output : String) : List MEntry → List MEntry
  | [] => [.example input output]
  | .example i o :: rest =>
    if i = input then .example i output :: rest
    else .example i o :: addExampleM input output rest
  | e :: rest => e :: addExampleM input output rest

/-- `add_or_merge_entry(kb, new_entry)` (src/chatbot.py lines 193-232). -/
def addOrMergeEntryC (kb : List CEntry) (e : CEntry) : List CEntry :=
  match e with
  | .assoc s p o =>
    if kb.any (fun x => match x with
      | .assoc s' p' o' => s' = s && p' = p && o' = o
      | _ => false) then kb
    else kb ++ [e]
  | .phrase i o => addPhraseC i o kb
  | .example i o => addExampleC i o kb
  | .simple tag c =>
    if kb.any (fun x => match x with
      | .simple tag' c' => tag' = tag && toLowerStr c' = toLowerStr c
      | _ => false) then kb
    else kb ++ [e]

/-- `add_or_merge_entry(kb, new_entry)` (src/main.py lines 207-240). -/
def addOrMergeEntryM (kb : List MEntry) (e : MEntry) : List MEntry :=
  match e with
  | .assoc s p o =>
    if kb.any (fun x => match x with
      | .assoc s' p' o' => s' = s && p' = p && o' = o
      | _ => false) then kb
    else kb ++ [e]
  | .phrase i o => addPhraseM i o kb
  | .example i o => addExampleM i o kb
  | .simple tag c =>
    if kb.any (fun x => match x with
      | .simple tag' c' => tag' = tag && toLowerStr c' = toLowerStr c
      | _ => false) then kb
    else kb ++ [e]

/-! ### Answer selection loop and recent-response window
(src/chatbot.py lines 101, 131-137; src/main.py lines 108, 116-122)

`recent_phrase_responses` is a module-global list.  After choosing a
response the code appends it and pops the front when the length exceeds 5;
the all-recent fallback `return outputs[0]` performs *no* window update. -/

def pushRecent (recent : List String) (r : String) : List String :=
  let w := recent ++ [r]
  if 5 < w.length then w.drop 1 else w

/-- The `for resp in outputs: if resp not in recent_phrase_responses`
scan: first output not in the window. -/
def selectLoop (recent : List String) : List String → Option String
  | [] => none
  | r :: rest => if recent.contains r then selectLoop recent rest else some r

/-- The selection step on a resolved output list: the first non-recent
output (pushed into the window), else the first output in stored order with
the window untouched.  On an empty output list the source would raise
`IndexError` at `outputs[0]`; that is modelled as `none` (training never
stores a phrase without outputs). -/
def selectOutput (outputs recent : List String) : Option (String × List String) :=
  match outputs with
  | [] => none
  | o :: _ =>
    match selectLoop recent outputs with
    | some r => some (r, pushRecent recent r)
    | none => some (o, recent)

/-! ### fuzzywuzzy model (pure-Python path) — used by `answer_phrase`
(src/chatbot.py lines 99-139)

Without the optional C `python-Levenshtein` backend, `fuzz.ratio` is
`int(round(100 * SequenceMatcher(None, s1, s2).ratio()))` (Python 3
`round` = half to even); `utils.full_process` replaces `\W` (which keeps
underscores) with spaces, lower-cases and trims; `token_sort_ratio` sorts
the whitespace-split tokens of each processed string, re-joins with single
spaces and applies `fuzz.ratio`; `process.extractOne` applies the processor
to the query and every choice and `max`es on the score (first maximal
choice wins). -/

/-- Maximal runs of characters satisfying `keep` (everything else is a
separator). -/
def runsBy (keep : Char → Bool) (l : List Char) : List (List Char) :=
  let step := fun c (acc : Option (List Char) × List (List Char)) =>
    if keep c then (some (c :: acc.1.getD []), acc.2)
    else (none, match acc.1 with
      | some r => r :: acc.2
      | none => acc.2)
  let fin := l.foldr step (none, [])
  match fin.1 with
  | some r => r :: fin.2
  | none => fin.2

/-- Python `str.split()` with no argument: split on whitespace runs,
dropping empties. -/
def wordsBySpaces (l : List Char) : List (List Char) :=
  runsBy (fun c => !isSpaceChar c) l

def fullProcess (s : String) : String :=
  pyStripS ⟨s.data.map (fun c => if isWordChar c then c.toLower else ' ')⟩

/-- `.split()` then `sorted(...)` then `" ".join(...)` (a stable sort by
code-point order; equal tokens are identical, so any stable sort gives
Python's result). -/
def tokenSortJoin (s : String) : String :=
  let ws := (wordsBySpaces s.data).map (fun w => (⟨w⟩ : String))
  String.intercalate " " (List.insertionSort (fun x y => strLeB x y = true) ws)

/-- Round half to even of `num/den` (`den > 0`), Python 3 `round`. -/
def pyRoundNat (num den : Nat) : Nat :=
  let q := num / den
  let r := num % den
  if 2 * r < den then q
  else if den < 2 * r then q + 1
  else if q % 2 = 0 then q else q + 1

/-- `fuzz.ratio(s1, s2)` (0–100). -/
def fuzzRatio (s1 s2 : String) : Nat :=
  let p := ratioPair s1.data s2.data
  pyRoundNat (100 * p.1) p.2

/-- `fuzz.token_sort_ratio(s1, s2)` (full processing is applied inside the
scorer; it is idempotent, so the extra application by `extractOne` is
harmless). -/
def tokenSortRatio (s1 s2 : String) : Nat :=
  fuzzRatio (tokenSortJoin (fullProcess s1)) (tokenSortJoin (fullProcess s2))

/-- `process.extractOne(user_input, triggers, scorer=fuzz.token_sort_ratio)`:
the first choice with the maximal score, with its score. -/
def extractOneTSR (query : String) (choices : List String) :
    Option (String × Nat) :=
  match choices with
  | [] => none
  | c :: cs =>
    some (cs.foldl (fun best x =>
      let sx := tokenSortRatio query x
      if best.2 < sx then (x, sx) else best) (c, tokenSortRatio query c))

/-! ### chatbot.py answer flow (src/chatbot.py lines 21-97, 103-191) -/

/-- `tokenize(text)`: `re.findall(r"\b\w+\b", text.lower())` — the maximal
word-character runs of the lower-cased text. -/
def tokenize (s : String) : List String :=
  (runsBy isWordChar (toLowerStr s).data).map (fun r => (⟨r⟩ : String))

/-- Match `\b(the|a|an)\b` at the current position: `prevIsWord` says
whether the preceding original character was a word character (no match
without a boundary).  The alternation tries `the`, `a`, `an` in order, each
with the trailing boundary check, exactly as the regex engine backtracks.
Matching is case-insensitive; returns the matched length. -/
def articleAt (l : List Char) (prevIsWord : Bool) : Option Nat :=
  if prevIsWord then none
  else
    let lw := l.map Char.toLower
    let bAfter := fun (k : Nat) =>
      match lw.drop k with
      | [] => true
      | c :: _ => !isWordChar c
    if lw.take 3 = ['t', 'h', 'e'] && bAfter 3 then some 3
    else if lw.take 1 = ['a'] && bAfter 1 then some 1
    else if lw.take 2 = ['a', 'n'] && bAfter 2 then some 2
    else none

/-- `remove_articles(text)` (lines 25-26): delete every word-bounded
`the`/`a`/`an` (case-insensitive), then strip. -/
def removeArticlesAux : Nat → Bool → List Char → List Char
  | 0, _, l => l
  | _ + 1, _, [] => []
  | fuel + 1, prevW, l@(c :: rest) =>
    match articleAt l prevW with
    | some k => removeArticlesAux fuel true (l.drop k)
    | none => c :: removeArticlesAux fuel (isWordChar c) rest

def removeArticles (s : String) : String :=
  pyStripS ⟨removeArticlesAux (s.data.length + 1) false s.data⟩

/-- First-occurrence search for the literal `pat` followed by a non-empty
`(.+)` capture (greedy, stopping at a newline as `.` does): the helper for
`re.search(r"what is (.+)", text)` and `re.search(r"what color is (.+)",
text)`.  A position where nothing (or only a newline) follows the literal
does not match, and the engine tries later positions. -/
def searchCapture (pat : String) : Nat → List Char → Option (List Char)
  | 0, _ => none
  | _ + 1, [] => none
  | fuel + 1, l@(_ :: rest) =>
    if pat.data.isPrefixOf l then
      let cap := (l.drop pat.data.length).takeWhile (fun c => c ≠ '\n')
      if cap ≠ [] then some cap else searchCapture pat fuel rest
    else searchCapture pat fuel rest

def whWords : List String := ["what", "who", "where", "when", "why", "how"]

/-- Result of `parse_question` (src/chatbot.py lines 73-97; the chatbot
variant has no yes/no branch, `qtype` is `"wh"` or `None`, `obj` is always
`None`). -/
structure ParsedQ where
  isWh : Bool
  subject : Option String
  predicate : Option String
deriving Repr, DecidableEq

def parseQuestion (s : String) : ParsedQ :=
  let text := pyStripS (toLowerStr s)
  let toks := tokenize text
  match toks with
  | [] => ⟨false, none, none⟩
  | first :: _ =>
    if whWords.contains first then
      if toks.contains "color" then
        match searchCapture "what color is " (text.data.length + 1) text.data with
        | some cap => ⟨true, some (removeArticles (pyStripS ⟨cap⟩)), some "has_color"⟩
        | none => ⟨true, none, none⟩
      else
        match searchCapture "what is " (text.data.length + 1) text.data with
        | some cap => ⟨true, some (removeArticles (pyStripS ⟨cap⟩)), none⟩
        | none => ⟨true, none, none⟩
    else ⟨false, none, none⟩

/-- Python truthiness of an optional string (`if subject and ...`). -/
def optTruthy : Option String → Bool
  | some v => v ≠ ""
  | none => false

/-- `find_association(kb, subject, predicate, obj)` (lines 48-61; `obj` is
never passed by `answer_question`): each *truthy* filter must match. -/
def findAssociation (kb : List CEntry) (subject predicate : Option String) :
    List (String × String × String) :=
  kb.filterMap (fun e => match e with
    | .assoc s p o =>
      if (!optTruthy subject || subject = some s) &&
          (!optTruthy predicate || predicate = some p) then some (s, p, o)
      else none
    | _ => none)

/-- `find_facts_or_concepts(kb, input_text)` (lines 63-71): contents of
fact/concept entries sharing at least one token with the input. -/
def findFactsOrConcepts (kb : List CEntry) (input : String) : List String :=
  let itoks := tokenize input
  kb.filterMap (fun e => match e with
    | .simple tag c =>
      if (tag = SimpleTag.fact || tag = SimpleTag.concept) &&
          itoks.any (fun t => (tokenize c).contains t) then some c
      else none
    | _ => none)

/-- `answer_phrase(kb, user_input, threshold=75)` (lines 103-139), with the
global window threaded: build `(trigger, outputs)` pairs from every phrase
entry, fuzzy-pick the best trigger, give up below 75, then run the
selection loop on the owning entry's outputs. -/
def answerPhrase (kb : List CEntry) (input : String) (recent : List String) :
    Option (String × List String) :=
  let pairs := kb.flatMap (fun e => match e with
    | .phrase i o => i.map (fun t => (t, o))
    | _ => [])
  let triggers := pairs.map (fun p => p.1)
  match extractOneTSR input triggers with
  | none => none
  | some (best, score) =>
    if score < 75 then none
    else
      match pairs.find? (fun p => p.1 = best) with
      | some (_, outputs) => selectOutput outputs recent
      | none => none

/-- `answer_example(kb, user_input, threshold=0.7)` (lines 141-156): exact
match on the lower-cased stripped input first, then
`get_close_matches(..., n=1, cutoff=0.7)` over the example inputs. -/
def answerExample (kb : List CEntry) (input : String) : Option String :=
  let low := pyStripS (toLowerStr input)
  match kb.find? (fun e => match e with
    | .example i _ => i = low
    | _ => false) with
  | some (.example _ o) => some o
  | _ =>
    let exInputs := kb.filterMap (fun e => match e with
      | .example i _ => some i
      | _ => none)
    match getCloseMatches1 low exInputs (7, 10) with
    | some m =>
      match kb.find? (fun e => match e with
        | .example i _ => i = m
        | _ => false) with
      | some (.example _ o) => some o
      | _ => none
    | none => none

/-- `answer_question(kb, input_text)` (src/chatbot.py lines 158-191) with
the recent-response window threaded (the source mutates the module global
inside `answer_phrase`; the window therefore changes even when the phrase
answer is the falsy `""` and control falls through).  Returns the reply and
the new window. -/
def answerQuestion (kb : List CEntry) (input : String) (recent : List String) :
    String × List String :=
  match tryMath input with
  | some r => (r, recent)
  | none =>
    let (phr, rec2) :=
      match answerPhrase kb input recent with
      | some (r, w) => (some r, w)
      | none => (none, recent)
    match phr with
    | some r =>
      if r ≠ "" then (r, rec2)
      else answerRest kb input rec2
    | none => answerRest kb input rec2
where
  /-- The example/WH/fallback tail of `answer_question`. -/
  answerRest (kb : List CEntry) (input : String) (rec2 : List String) :
      String × List String :=
    match answerExample kb input with
    | some r =>
      if r ≠ "" then (r, rec2) else answerTail kb input rec2
    | none => answerTail kb input rec2
  /-- The `parse_question` tail. -/
  answerTail (kb : List CEntry) (input : String) (rec2 : List String) :
      String × List String :=
    let pq := parseQuestion input
    if pq.isWh then
      match pq.subject with
      | none =>
        ((findFactsOrConcepts kb input).headD "I don't know.", rec2)
      | some subj =>
        if optTruthy pq.predicate then
          match findAssociation kb (some subj) pq.predicate with
          | (_, _, o) :: _ => (o, rec2)
          | [] =>
            ("I don't know the " ++
              (replaceStr (pq.predicate.getD "") "_" " ") ++ " of " ++ subj ++ ".",
              rec2)
        else
          let stoks := tokenize subj
          let facts := kb.filterMap (fun e => match e with
            | .simple tag c =>
              if (tag = SimpleTag.fact || tag = SimpleTag.concept) &&
                  stoks.any (fun t => (tokenize c).contains t) then some c
              else none
            | _ => none)
          (facts.headD ("I don't know about " ++ subj ++ "."), rec2)
    else
      ((findFactsOrConcepts kb input).headD "I don't know the answer to that.",
        rec2)

example : answerQuestion [] "2 plus 2" [] = ("4", []) := by decide
example : answerQuestion [] "10 divided by 0" [] =
    ("I don't know the answer to that.", []) := by decide

/-! ## Lemma infrastructure -/

/-! ### Score pairs vs rationals -/

theorem pairLe_iff_q (p q : Nat × Nat) (hp : 0 < p.2) (hq : 0 < q.2) :
    pairLe p q = true ↔ (p.1 : ℚ) / (p.2 : ℚ) ≤ (q.1 : ℚ) / (q.2 : ℚ) := by
  have hp' : (0 : ℚ) < (p.2 : ℚ) := by exact_mod_cast hp
  have hq' : (0 : ℚ) < (q.2 : ℚ) := by exact_mod_cast hq
  rw [div_le_div_iff hp' hq']
  unfold pairLe
  rw [decide_eq_true_iff]
  constructor
  · intro h
    exact_mod_cast h
  · intro h
    exact_mod_cast h

theorem pairLt_iff_q (p q : Nat × Nat) (hp : 0 < p.2) (hq : 0 < q.2) :
    pairLt p q = true ↔ (p.1 : ℚ) / (p.2 : ℚ) < (q.1 : ℚ) / (q.2 : ℚ) := by
  have hp' : (0 : ℚ) < (p.2 : ℚ) := by exact_mod_cast hp
  have hq' : (0 : ℚ) < (q.2 : ℚ) := by exact_mod_cast hq
  rw [div_lt_div_iff hp' hq']
  unfold pairLt
  rw [decide_eq_true_iff]
  constructor
  · intro h
    exact_mod_cast h
  · intro h
    exact_mod_cast h

theorem ratioPair_den_pos (a b : List Char) : 0 < (ratioPair a b).2 := by
  unfold ratioPair
  split
  · exact Nat.one_pos
  · simp only []
    omega

theorem similarityPair_den_pos (a b : String) : 0 < (similarityPair a b).2 := by
  unfold similarityPair
  split
  · exact Nat.one_pos
  · dsimp only
    split
    · exact Nat.one_pos
    · exact ratioPair_den_pos _ _

/-! ### Bounds of `find_longest_match`

The j2len row after `t` sweeps is bounded by `min t (j + 1 - blo)`; every
best block lies inside the window.  These give `M ≤ min (ahi-alo, bhi-blo)`
for the total of the matching blocks, hence `ratio ∈ [0, 1]`. -/

def kVal (prev : Nat → Nat) (j : Nat) : Nat :=
  match j with
  | 0 => 1
  | jj + 1 => prev jj + 1

def rowStep (prev row : Nat → Nat) (j : Nat) : Nat → Nat :=
  Function.update row j (kVal prev j)

def bestStep (i : Nat) (prev : Nat → Nat) (bst : Best) (j : Nat) : Best :=
  if bst.size < kVal prev j then ⟨i + 1 - kVal prev j, j + 1 - kVal prev j, kVal prev j⟩
  else bst

theorem processJ_eq (i : Nat) (prev : Nat → Nat) (st : (Nat → Nat) × Best) (j : Nat) :
    processJ i prev st j = (rowStep prev st.1 j, bestStep i prev st.2 j) := rfl

theorem foldl_processJ_split (i : Nat) (prev : Nat → Nat) (js : List Nat)
    (r0 : Nat → Nat) (b0 : Best) :
    js.foldl (fun acc j => processJ i prev acc j) (r0, b0) =
      (js.foldl (rowStep prev) r0, js.foldl (bestStep i prev) b0) := by
  induction js generalizing r0 b0 with
  | nil => rfl
  | cons j js ih => rw [List.foldl_cons, processJ_eq, List.foldl_cons, List.foldl_cons, ih]

/-- The j2len bound: every row value after `t` sweeps is at most
`min t (j + 1 - blo)`. -/
def RowBnd (blo t : Nat) (row : Nat → Nat) : Prop :=
  ∀ j, row j ≤ min t (j + 1 - blo)

/-- Window containment of the running best block (`start` bounds
`besti + bestsize`). -/
def BestBnd (alo blo bhi start : Nat) (bst : Best) : Prop :=
  alo ≤ bst.i ∧ blo ≤ bst.j ∧ bst.i + bst.size ≤ start ∧ bst.j + bst.size ≤ bhi

theorem kVal_le (prev : Nat → Nat) (blo t j : Nat) (hprev : RowBnd blo t prev)
    (hj : blo ≤ j) : kVal prev j ≤ min (t + 1) (j + 1 - blo) := by
  match j with
  | 0 =>
    have : blo = 0 := Nat.le_zero.mp hj
    subst this
    simp [kVal]
  | jj + 1 =>
    have h := hprev jj
    simp only [kVal]
    omega

theorem rowStep_fold_bnd (prev : Nat → Nat) (blo bhi t : Nat)
    (hprev : RowBnd blo t prev) :
    ∀ (js : List Nat), (∀ j ∈ js, blo ≤ j ∧ j < bhi) →
    ∀ (row : Nat → Nat), RowBnd blo (t + 1) row →
    RowBnd blo (t + 1) (js.foldl (rowStep prev) row) := by
  intro js
  induction js with
  | nil => intro _ row h; exact h
  | cons j js ih =>
    intro hmem row hrow
    rw [List.foldl_cons]
    refine ih (fun x hx => hmem x (List.mem_cons_of_mem _ hx)) _ ?_
    intro j'
    unfold rowStep
    rw [Function.update_apply]
    split
    · rename_i hj'
      subst hj'
      exact kVal_le prev blo t j' hprev (hmem j' (List.mem_cons_self _ _)).1
    · exact hrow j'

theorem bestStep_fold_bnd (i : Nat) (prev : Nat → Nat) (alo blo bhi : Nat)
    (hprev : RowBnd blo (i - alo) prev) (hi : alo ≤ i) :
    ∀ (js : List Nat), (∀ j ∈ js, blo ≤ j ∧ j < bhi) →
    ∀ (bst : Best), BestBnd alo blo bhi (i + 1) bst →
    BestBnd alo blo bhi (i + 1) (js.foldl (bestStep i prev) bst) := by
  intro js
  induction js with
  | nil => intro _ bst h; exact h
  | cons j js ih =>
    intro hmem bst hbst
    rw [List.foldl_cons]
    refine ih (fun x hx => hmem x (List.mem_cons_of_mem _ hx)) _ ?_
    obtain ⟨hjlo, hjhi⟩ := hmem j (List.mem_cons_self _ _)
    unfold bestStep
    split
    · have hk := kVal_le prev blo (i - alo) j hprev hjlo
      constructor
      · simp only []
        omega
      constructor
      · simp only []
        omega
      constructor
      · simp only []
        have hk1 : 1 ≤ kVal prev j := by
          match j with
          | 0 => simp [kVal]
          | jj + 1 => simp [kVal]
        omega
      · simp only []
        have hk1 : 1 ≤ kVal prev j := by
          match j with
          | 0 => simp [kVal]
          | jj + 1 => simp [kVal]
        omega
    · exact hbst

theorem sweepI_mem_bounds (a b : List Char) (blo bhi i : Nat) :
    ∀ j ∈ (b2j b (charAt a i)).filter (fun j => blo ≤ j && j < bhi),
      blo ≤ j ∧ j < bhi := by
  intro j hj
  have := List.of_mem_filter hj
  simp only [Bool.and_eq_true, decide_eq_true_eq] at this
  exact this

theorem dpFold_inv (a b : List Char) (alo blo bhi : Nat) :
    ∀ (n start : Nat) (st : (Nat → Nat) × Best), alo ≤ start →
    RowBnd blo (start - alo) st.1 → BestBnd alo blo bhi start st.2 →
    RowBnd blo (start + n - alo)
        ((List.range' start n).foldl (sweepI a b blo bhi) st).1 ∧
      BestBnd alo blo bhi (start + n)
        ((List.range' start n).foldl (sweepI a b blo bhi) st).2 := by
  intro n
  induction n with
  | zero => intro start st h1 h2 h3; simpa using ⟨h2, h3⟩
  | succ n ih =>
    intro start st h1 h2 h3
    rw [List.range'_succ, List.foldl_cons]
    have hstep : sweepI a b blo bhi st start =
        (((b2j b (charAt a start)).filter (fun j => blo ≤ j && j < bhi)).foldl
            (rowStep st.1) (fun _ => 0),
          ((b2j b (charAt a start)).filter (fun j => blo ≤ j && j < bhi)).foldl
            (bestStep start st.1) st.2) := by
      unfold sweepI
      exact foldl_processJ_split _ _ _ _ _
    rw [hstep]
    have hrow : RowBnd blo (start - alo + 1)
        (((b2j b (charAt a start)).filter (fun j => blo ≤ j && j < bhi)).foldl
          (rowStep st.1) (fun _ => 0)) := by
      refine rowStep_fold_bnd st.1 blo bhi (start - alo) h2 _
        (sweepI_mem_bounds a b blo bhi start) _ ?_
      intro j
      simp
    have hbest : BestBnd alo blo bhi (start + 1)
        (((b2j b (charAt a start)).filter (fun j => blo ≤ j && j < bhi)).foldl
          (bestStep start st.1) st.2) := by
      refine bestStep_fold_bnd start st.1 alo blo bhi h2 h1 _
        (sweepI_mem_bounds a b blo bhi start) _ ?_
      obtain ⟨x1, x2, x3, x4⟩ := h3
      exact ⟨x1, x2, Nat.le_succ_of_le x3, x4⟩
    have hres := ih (start + 1)
      (((b2j b (charAt a start)).filter (fun j => blo ≤ j && j < bhi)).foldl
          (rowStep st.1) (fun _ => 0),
        ((b2j b (charAt a start)).filter (fun j => blo ≤ j && j < bhi)).foldl
          (bestStep start st.1) st.2)
      (Nat.le_succ_of_le h1)
      (by
        have harith : start + 1 - alo = start - alo + 1 := by omega
        rw [harith]
        exact hrow) hbest
    constructor
    · have harith : start + 1 + n - alo = start + (n + 1) - alo := by omega
      rw [← harith]
      exact hres.1
    · have harith : start + 1 + n = start + (n + 1) := by omega
      rw [← harith]
      exact hres.2

theorem dpBest_bounds (a b : List Char) (alo ahi blo bhi : Nat)
    (h1 : alo ≤ ahi) (h2 : blo ≤ bhi) :
    BestBnd alo blo bhi ahi (dpBest a b alo ahi blo bhi) := by
  unfold dpBest
  have := (dpFold_inv a b alo blo bhi (ahi - alo) alo
    ((fun _ => 0), ⟨alo, blo, 0⟩) (Nat.le_refl _)
    (by intro j; simp) ⟨Nat.le_refl _, Nat.le_refl _, by simp, by simpa using h2⟩).2
  have harith : alo + (ahi - alo) = ahi := by omega
  rw [harith] at this
  exact this

theorem extLeft_spec (a b : List Char) (alo blo : Nat) :
    ∀ (bi bj sz : Nat), alo ≤ bi → blo ≤ bj →
    alo ≤ (extLeft a b alo blo bi bj sz).i ∧
      blo ≤ (extLeft a b alo blo bi bj sz).j ∧
      (extLeft a b alo blo bi bj sz).i + (extLeft a b alo blo bi bj sz).size =
        bi + sz ∧
      (extLeft a b alo blo bi bj sz).j + (extLeft a b alo blo bi bj sz).size =
        bj + sz := by
  intro bi
  induction bi with
  | zero =>
    intro bj sz h1 h2
    simp only [extLeft]
    exact ⟨h1, h2, by trivial, by trivial⟩
  | succ bi ih =>
    intro bj sz h1 h2
    simp only [extLeft]
    split
    · rename_i h
      have := ih (bj - 1) (sz + 1) (by omega) (by omega)
      omega
    · exact ⟨h1, h2, by trivial, by trivial⟩

theorem extRight_spec (a b : List Char) (ahi bhi bi bj : Nat) :
    ∀ (fuel sz : Nat), sz ≤ (extRight a b ahi bhi bi bj fuel sz) ∧
      (bi + sz ≤ ahi → bi + extRight a b ahi bhi bi bj fuel sz ≤ ahi) ∧
      (bj + sz ≤ bhi → bj + extRight a b ahi bhi bi bj fuel sz ≤ bhi) := by
  intro fuel
  induction fuel with
  | zero =>
    intro sz
    simp only [extRight]
    omega
  | succ fuel ih =>
    intro sz
    simp only [extRight]
    split
    · rename_i h
      have := ih (sz + 1)
      constructor
      · omega
      constructor
      · intro _
        exact this.2.1 (by omega)
      · intro _
        exact this.2.2 (by omega)
    · omega

/-- Window containment of `find_longest_match`'s result. -/
theorem findLongestMatch_bounds (a b : List Char) (alo ahi blo bhi : Nat)
    (h1 : alo ≤ ahi) (h2 : blo ≤ bhi) :
    alo ≤ (findLongestMatch a b alo ahi blo bhi).i ∧
      blo ≤ (findLongestMatch a b alo ahi blo bhi).j ∧
      (findLongestMatch a b alo ahi blo bhi).i +
        (findLongestMatch a b alo ahi blo bhi).size ≤ ahi ∧
      (findLongestMatch a b alo ahi blo bhi).j +
        (findLongestMatch a b alo ahi blo bhi).size ≤ bhi := by
  obtain ⟨d1, d2, d3, d4⟩ := dpBest_bounds a b alo ahi blo bhi h1 h2
  unfold findLongestMatch
  set d := dpBest a b alo ahi blo bhi
  obtain ⟨e1, e2, e3, e4⟩ := extLeft_spec a b alo blo d.i d.j d.size d1 d2
  set e := extLeft a b alo blo d.i d.j d.size
  obtain ⟨r1, r2, r3⟩ := extRight_spec a b ahi bhi e.i e.j ahi e.size
  exact ⟨e1, e2, r2 (by omega), r3 (by omega)⟩

/-- The total size of the matching blocks fits in both windows. -/
theorem matchTotalF_le (a b : List Char) :
    ∀ (fuel alo ahi blo bhi : Nat), alo ≤ ahi → blo ≤ bhi →
    matchTotalF a b fuel alo ahi blo bhi ≤ ahi - alo ∧
      matchTotalF a b fuel alo ahi blo bhi ≤ bhi - blo := by
  intro fuel
  induction fuel with
  | zero =>
    intro alo ahi blo bhi h1 h2
    simp [matchTotalF]
  | succ fuel ih =>
    intro alo ahi blo bhi h1 h2
    obtain ⟨f1, f2, f3, f4⟩ := findLongestMatch_bounds a b alo ahi blo bhi h1 h2
    simp only [matchTotalF]
    set m := findLongestMatch a b alo ahi blo bhi
    split
    · simp
    · rename_i hsz
      have hleft : (if alo < m.i ∧ blo < m.j then
          matchTotalF a b fuel alo m.i blo m.j else 0) ≤ m.i - alo ∧
          (if alo < m.i ∧ blo < m.j then
          matchTotalF a b fuel alo m.i blo m.j else 0) ≤ m.j - blo := by
        split
        · rename_i hc
          exact ih alo m.i blo m.j (by omega) (by omega)
        · simp
      have hright : (if m.i + m.size < ahi ∧ m.j + m.size < bhi then
          matchTotalF a b fuel (m.i + m.size) ahi (m.j + m.size) bhi else 0) ≤
            ahi - (m.i + m.size) ∧
          (if m.i + m.size < ahi ∧ m.j + m.size < bhi then
          matchTotalF a b fuel (m.i + m.size) ahi (m.j + m.size) bhi else 0) ≤
            bhi - (m.j + m.size) := by
        split
        · rename_i hc
          exact ih (m.i + m.size) ahi (m.j + m.size) bhi (by omega) (by omega)
        · simp
      omega

theorem matchTotal_le (a b : List Char) :
    matchTotal a b ≤ a.length ∧ matchTotal a b ≤ b.length := by
  have := matchTotalF_le a b (a.length + 1) 0 a.length 0 b.length
    (Nat.zero_le _) (Nat.zero_le _)
  simpa [matchTotal] using this

/-- `ratio()` lies in `[0, 1]`: the pair is a fraction `≤ 1`. -/
theorem ratioPair_le_den (a b : List Char) : (ratioPair a b).1 ≤ (ratioPair a b).2 := by
  unfold ratioPair
  split
  · exact Nat.le_refl _
  · simp only []
    have := matchTotal_le a b
    omega

theorem ratioQ_nonneg (a b : List Char) : 0 ≤ ratioQ a b := by
  unfold ratioQ
  positivity

theorem ratioQ_le_one (a b : List Char) : ratioQ a b ≤ 1 := by
  unfold ratioQ
  have hd := ratioPair_den_pos a b
  have hn := ratioPair_le_den a b
  rw [div_le_one (by exact_mod_cast hd)]
  exact_mod_cast hn

/-! ### `ratio(s, s) = 1`

For `a = b = l` (the full window) the first-maximal best block of the
dynamic program is always *diagonal* (`besti = bestj`), even under
autojunk: an off-diagonal chain ending in column `j` is no longer than the
diagonal run ending at `j` (for `j` left of the sweep, already subsumed by
the best) and no longer than the current diagonal chain (for `j` right of
the sweep, which the loop processed just before, at `j = i`).  A diagonal
block then extends to the whole string in the extension loops, so the
single matching block covers everything and the ratio is 1. -/

/-- The in-window position list of one sweep of `find_longest_match` over
`a = b = l` on the full window. -/
def selfJs (l : List Char) (i : Nat) : List Nat :=
  (b2j l (charAt l i)).filter (fun j => 0 ≤ j && j < l.length)

/-- Length of the run of non-popular characters ending at `i` — the value
the diagonal j2len chain reaches at `(i, i)`. -/
def diagRun (l : List Char) : Nat → Nat
  | 0 => if isPopular l (charAt l 0) then 0 else 1
  | i + 1 => if isPopular l (charAt l (i + 1)) then 0 else diagRun l i + 1

/-- The j2len row after `t` sweeps (over `a = b = l`, full window). -/
def rowT (l : List Char) : Nat → Nat → Nat
  | 0, _ => 0
  | t + 1, j => if j ∈ selfJs l t then kVal (rowT l t) j else 0

/-- The best size the diagonal has justified after `t` sweeps. -/
def maxDiag (l : List Char) : Nat → Nat
  | 0 => 0
  | t + 1 => max (maxDiag l t) (diagRun l t)

theorem mem_occurrences (b : List Char) (c : Char) (j : Nat) :
    j ∈ occurrences b c ↔ j < b.length ∧ charAt b j = c := by
  unfold occurrences
  rw [List.mem_filter, List.mem_range]
  simp

theorem mem_selfJs (l : List Char) (i j : Nat) :
    j ∈ selfJs l i ↔
      isPopular l (charAt l i) = false ∧ j < l.length ∧ charAt l j = charAt l i := by
  unfold selfJs b2j
  split
  · rename_i hpop
    simp [hpop]
  · rename_i hpop
    rw [List.mem_filter, mem_occurrences]
    simp only [Bool.and_eq_true, decide_eq_true_eq]
    constructor
    · intro ⟨⟨h1, h2⟩, _, h4⟩
      exact ⟨Bool.eq_false_iff.mpr hpop, h1, h2⟩
    · intro ⟨_, h2, h3⟩
      exact ⟨⟨h2, h3⟩, Nat.zero_le _, h2⟩

theorem diagRun_pos_of_notPop (l : List Char) (j : Nat)
    (h : isPopular l (charAt l j) = false) : 1 ≤ diagRun l j := by
  match j with
  | 0 => simp [diagRun, h]
  | jj + 1 => simp [diagRun, h]

theorem kVal_pos (prev : Nat → Nat) (j : Nat) : 1 ≤ kVal prev j := by
  match j with
  | 0 => simp [kVal]
  | jj + 1 => simp [kVal]

/-- Lemma A: any chain value computable at sweep `i` in column `j` is at
most the diagonal run ending at `j`. -/
theorem kVal_le_diagRun (l : List Char) :
    ∀ (i j : Nat), j ∈ selfJs l i → kVal (rowT l i) j ≤ diagRun l j := by
  intro i
  induction i with
  | zero =>
    intro j hj
    obtain ⟨hpop, hjn, hcj⟩ := (mem_selfJs l 0 j).mp hj
    have hpj : isPopular l (charAt l j) = false := by rw [hcj]; exact hpop
    have := diagRun_pos_of_notPop l j hpj
    have : kVal (rowT l 0) j = 1 := by
      match j with
      | 0 => rfl
      | jj + 1 => simp [kVal, rowT]
    omega
  | succ ii ih =>
    intro j hj
    obtain ⟨hpop, hjn, hcj⟩ := (mem_selfJs l (ii + 1) j).mp hj
    have hpj : isPopular l (charAt l j) = false := by rw [hcj]; exact hpop
    match j with
    | 0 =>
      have h1 := diagRun_pos_of_notPop l 0 hpj
      have : kVal (rowT l (ii + 1)) 0 = 1 := rfl
      omega
    | jj + 1 =>
      have hk : kVal (rowT l (ii + 1)) (jj + 1) = rowT l (ii + 1) jj + 1 := rfl
      have hrow : rowT l (ii + 1) jj =
          if jj ∈ selfJs l ii then kVal (rowT l ii) jj else 0 := rfl
      have hdr : diagRun l (jj + 1) = diagRun l jj + 1 := by
        simp [diagRun, hpj]
      by_cases hmem : jj ∈ selfJs l ii
      · have := ih jj hmem
        rw [hk, hrow, if_pos hmem, hdr]
        omega
      · rw [hk, hrow, if_neg hmem, hdr]
        omega

/-- Lemma C: the chain value at `(i, i)` is exactly the diagonal run. -/
theorem kVal_diag_eq (l : List Char) :
    ∀ (i : Nat), i ∈ selfJs l i → kVal (rowT l i) i = diagRun l i := by
  intro i
  induction i with
  | zero =>
    intro hi
    obtain ⟨hpop, _, _⟩ := (mem_selfJs l 0 0).mp hi
    simp [kVal, diagRun, hpop]
  | succ ii ih =>
    intro hi
    obtain ⟨hpop, hin, _⟩ := (mem_selfJs l (ii + 1) (ii + 1)).mp hi
    have hk : kVal (rowT l (ii + 1)) (ii + 1) = rowT l (ii + 1) ii + 1 := rfl
    have hrow : rowT l (ii + 1) ii =
        if ii ∈ selfJs l ii then kVal (rowT l ii) ii else 0 := rfl
    have hdr : diagRun l (ii + 1) = diagRun l ii + 1 := by
      simp [diagRun, hpop]
    by_cases hmem : ii ∈ selfJs l ii
    · rw [hk, hrow, if_pos hmem, ih hmem, hdr]
    · have : diagRun l ii = 0 := by
        by_contra hne
        have hpos : isPopular l (charAt l ii) = false := by
          match h : isPopular l (charAt l ii) with
          | false => rfl
          | true =>
            exfalso
            apply hne
            match ii with
            | 0 => simp [diagRun, h]
            | i' + 1 => simp [diagRun, h]
        exact hmem ((mem_selfJs l ii ii).mpr ⟨hpos, by omega, rfl⟩)
      rw [hk, hrow, if_neg hmem, hdr, this]

/-- Lemma E: at sweep `i < n`, no column's chain value exceeds the
diagonal's. -/
theorem kVal_le_diag (l : List Char) :
    ∀ (i : Nat), i < l.length → ∀ j, j ∈ selfJs l i →
      kVal (rowT l i) j ≤ kVal (rowT l i) i := by
  intro i
  induction i with
  | zero =>
    intro _ j hj
    have h1 : kVal (rowT l 0) j = 1 := by
      match j with
      | 0 => rfl
      | jj + 1 => simp [kVal, rowT]
    have := kVal_pos (rowT l 0) 0
    omega
  | succ ii ih =>
    intro hn j hj
    obtain ⟨hpop, hjn, hcj⟩ := (mem_selfJs l (ii + 1) j).mp hj
    match j with
    | 0 =>
      have h1 : kVal (rowT l (ii + 1)) 0 = 1 := rfl
      have := kVal_pos (rowT l (ii + 1)) (ii + 1)
      omega
    | jj + 1 =>
      have hk : kVal (rowT l (ii + 1)) (jj + 1) = rowT l (ii + 1) jj + 1 := rfl
      have hki : kVal (rowT l (ii + 1)) (ii + 1) = rowT l (ii + 1) ii + 1 := rfl
      have hrowj : rowT l (ii + 1) jj =
          if jj ∈ selfJs l ii then kVal (rowT l ii) jj else 0 := rfl
      have hrowi : rowT l (ii + 1) ii =
          if ii ∈ selfJs l ii then kVal (rowT l ii) ii else 0 := rfl
      by_cases hmem : jj ∈ selfJs l ii
      · obtain ⟨hpop', hjn', hcj'⟩ := (mem_selfJs l ii jj).mp hmem
        have hii : ii ∈ selfJs l ii :=
          (mem_selfJs l ii ii).mpr ⟨hpop', by omega, rfl⟩
        have := ih (by omega) jj hmem
        rw [hk, hki, hrowj, hrowi, if_pos hmem, if_pos hii]
        omega
      · rw [hk, hki, hrowj, if_neg hmem]
        have := kVal_pos (rowT l ii) ii
        omega

/-- The row fold writes `kVal prev j` at exactly the visited positions
(re-visits write the same value, so no distinctness is needed). -/
theorem rowFold_apply (prev : Nat → Nat) :
    ∀ (js : List Nat) (r0 : Nat → Nat) (j : Nat),
      (js.foldl (rowStep prev) r0) j = if j ∈ js then kVal prev j else r0 j := by
  intro js
  induction js with
  | nil => intro r0 j; simp
  | cons x js ih =>
    intro r0 j
    rw [List.foldl_cons, ih]
    by_cases hj : j ∈ js
    · simp [hj]
    · by_cases hx : j = x
      · subst hx
        simp [hj, rowStep, Function.update_apply]
      · simp [hj, hx, rowStep, Function.update_apply]

/-- A best fold over positions whose chain values stay at or below the
current best size changes nothing. -/
theorem bestFold_no_update (i : Nat) (prev : Nat → Nat) :
    ∀ (js : List Nat) (bst : Best),
      (∀ x ∈ js, kVal prev x ≤ bst.size) →
      js.foldl (bestStep i prev) bst = bst := by
  intro js
  induction js with
  | nil => intro bst _; rfl
  | cons x js ih =>
    intro bst hle
    rw [List.foldl_cons]
    have hx := hle x (List.mem_cons_self _ _)
    have hstep : bestStep i prev bst x = bst := by
      unfold bestStep
      rw [if_neg (by omega)]
    rw [hstep]
    exact ih bst (fun y hy => hle y (List.mem_cons_of_mem _ hy))

theorem selfJs_sorted (l : List Char) (i : Nat) :
    (selfJs l i).Pairwise (· < ·) := by
  unfold selfJs b2j
  split
  · simp
  · unfold occurrences
    exact ((List.pairwise_lt_range _).filter _).filter _

/-- Splitting a strictly sorted list at a member: everything before is
smaller, everything after is larger. -/
theorem sorted_split_at (i : Nat) :
    ∀ (js : List Nat), js.Pairwise (· < ·) → i ∈ js →
      ∃ L G, js = L ++ i :: G ∧ (∀ x ∈ L, x < i) ∧ (∀ x ∈ G, i < x) := by
  intro js
  induction js with
  | nil => intro _ h; exact absurd h (List.not_mem_nil i)
  | cons x js ih =>
    intro hp hm
    rcases List.mem_cons.mp hm with hx | hm'
    · subst hx
      refine ⟨[], js, rfl, by simp, ?_⟩
      intro y hy
      exact (List.pairwise_cons.mp hp).1 y hy
    · by_cases hx : x = i
      · subst hx
        refine ⟨[], js, rfl, by simp, ?_⟩
        intro y hy
        exact (List.pairwise_cons.mp hp).1 y hy
      · obtain ⟨L, G, heq, hL, hG⟩ := ih (List.pairwise_cons.mp hp).2 hm'
        refine ⟨x :: L, G, by rw [heq]; rfl, ?_, hG⟩
        intro y hy
        rcases List.mem_cons.mp hy with hyx | hyL
        · subst hyx
          have := (List.pairwise_cons.mp hp).1 i hm'
          exact this
        · exact hL y hyL

theorem diagRun_le_maxDiag (l : List Char) :
    ∀ (t x : Nat), x < t → diagRun l x ≤ maxDiag l t := by
  intro t
  induction t with
  | zero => intro x hx; omega
  | succ t ih =>
    intro x hx
    by_cases hxt : x = t
    · subst hxt
      simp [maxDiag]
    · have := ih x (by omega)
      simp only [maxDiag]
      omega

/-- One sweep of the best fold over `a = b = l` keeps the best block
diagonal and at least as large as every completed diagonal run. -/
theorem bestSweep_diag (l : List Char) (i : Nat) (hn : i < l.length)
    (bst : Best) (hdiag : bst.i = bst.j) (hsz : maxDiag l i ≤ bst.size) :
    ((selfJs l i).foldl (bestStep i (rowT l i)) bst).i =
        ((selfJs l i).foldl (bestStep i (rowT l i)) bst).j ∧
      maxDiag l (i + 1) ≤ ((selfJs l i).foldl (bestStep i (rowT l i)) bst).size := by
  match hpop : isPopular l (charAt l i) with
  | true =>
    have hempty : selfJs l i = [] := by
      unfold selfJs b2j
      rw [if_pos hpop]
      rfl
    have hdr : diagRun l i = 0 := by
      match i with
      | 0 => simp [diagRun, hpop]
      | ii + 1 => simp [diagRun, hpop]
    rw [hempty]
    simp only [List.foldl_nil]
    refine ⟨hdiag, ?_⟩
    simp only [maxDiag, hdr]
    omega
  | false =>
    have hi : i ∈ selfJs l i := (mem_selfJs l i i).mpr ⟨hpop, hn, rfl⟩
    obtain ⟨L, G, heq, hL, hG⟩ :=
      sorted_split_at i (selfJs l i) (selfJs_sorted l i) hi
    have hmemL : ∀ x ∈ L, x ∈ selfJs l i := by
      intro x hx; rw [heq]; exact List.mem_append_left _ hx
    have hmemG : ∀ x ∈ G, x ∈ selfJs l i := by
      intro x hx
      rw [heq]
      exact List.mem_append_right _ (List.mem_cons_of_mem _ hx)
    rw [heq, List.foldl_append, List.foldl_cons]
    have hfoldL : L.foldl (bestStep i (rowT l i)) bst = bst := by
      refine bestFold_no_update i (rowT l i) L bst ?_
      intro x hx
      calc kVal (rowT l i) x ≤ diagRun l x := kVal_le_diagRun l i x (hmemL x hx)
        _ ≤ maxDiag l i := diagRun_le_maxDiag l i x (hL x hx)
        _ ≤ bst.size := hsz
    rw [hfoldL]
    have hkc := kVal_diag_eq l i hi
    have hstep : (bestStep i (rowT l i) bst i).i = (bestStep i (rowT l i) bst i).j ∧
        maxDiag l (i + 1) ≤ (bestStep i (rowT l i) bst i).size ∧
        kVal (rowT l i) i ≤ (bestStep i (rowT l i) bst i).size := by
      unfold bestStep
      split
      · rename_i hlt
        refine ⟨rfl, ?_, ?_⟩
        · simp only [maxDiag]
          omega
        · simp only []
          omega
      · rename_i hnlt
        refine ⟨hdiag, ?_, by omega⟩
        simp only [maxDiag]
        omega
    obtain ⟨s1, s2, s3⟩ := hstep
    have hfoldG : G.foldl (bestStep i (rowT l i)) (bestStep i (rowT l i) bst i) =
        bestStep i (rowT l i) bst i := by
      refine bestFold_no_update i (rowT l i) G _ ?_
      intro x hx
      calc kVal (rowT l i) x ≤ kVal (rowT l i) i :=
            kVal_le_diag l i hn x (hmemG x hx)
        _ ≤ (bestStep i (rowT l i) bst i).size := s3
    rw [hfoldG]
    exact ⟨s1, s2⟩

/-- The dynamic-program fold over `a = b = l` (full window) keeps the row
characterized by `rowT` and the best block diagonal. -/
theorem dpFold_diag (l : List Char) :
    ∀ (m start : Nat) (st : (Nat → Nat) × Best), start + m ≤ l.length →
    st.1 = rowT l start → st.2.i = st.2.j → maxDiag l start ≤ st.2.size →
    ((List.range' start m).foldl (sweepI l l 0 l.length) st).1 =
        rowT l (start + m) ∧
      ((List.range' start m).foldl (sweepI l l 0 l.length) st).2.i =
        ((List.range' start m).foldl (sweepI l l 0 l.length) st).2.j ∧
      maxDiag l (start + m) ≤
        ((List.range' start m).foldl (sweepI l l 0 l.length) st).2.size := by
  intro m
  induction m with
  | zero =>
    intro start st _ h1 h2 h3
    simpa using ⟨h1, h2, h3⟩
  | succ m ih =>
    intro start st hmn h1 h2 h3
    rw [List.range'_succ, List.foldl_cons]
    have hstep : sweepI l l 0 l.length st start =
        ((selfJs l start).foldl (rowStep st.1) (fun _ => 0),
          (selfJs l start).foldl (bestStep start st.1) st.2) := by
      unfold sweepI selfJs
      exact foldl_processJ_split _ _ _ _ _
    rw [hstep]
    have hrow : ((selfJs l start).foldl (rowStep st.1) (fun _ => 0)) =
        rowT l (start + 1) := by
      funext j
      rw [rowFold_apply]
      have : rowT l (start + 1) j =
          if j ∈ selfJs l start then kVal (rowT l start) j else 0 := rfl
      rw [this, h1]
    have hbest := bestSweep_diag l start (by omega) st.2 h2 h3
    rw [← h1] at hbest
    have hres := ih (start + 1)
      ((selfJs l start).foldl (rowStep st.1) (fun _ => 0),
        (selfJs l start).foldl (bestStep start st.1) st.2)
      (by omega) hrow hbest.1 hbest.2
    have harith : start + 1 + m = start + (m + 1) := by omega
    rw [harith] at hres
    exact hres

theorem dpBest_self_diag (l : List Char) :
    (dpBest l l 0 l.length 0 l.length).i = (dpBest l l 0 l.length 0 l.length).j := by
  unfold dpBest
  have := dpFold_diag l l.length 0 ((fun _ => 0), ⟨0, 0, 0⟩) (by omega)
    (by funext j; rfl) rfl (by simp [maxDiag])
  exact this.2.1

theorem extLeft_self_diag (l : List Char) :
    ∀ (p sz : Nat), extLeft l l 0 0 p p sz = ⟨0, 0, p + sz⟩ := by
  intro p
  induction p with
  | zero => intro sz; simp [extLeft]
  | succ p ih =>
    intro sz
    simp only [extLeft]
    rw [if_pos ⟨Nat.succ_pos p, Nat.succ_pos p, by trivial⟩]
    have hred : p + 1 - 1 = p := rfl
    rw [hred, ih (sz + 1)]
    congr 1
    omega

theorem extRight_self_diag (l : List Char) :
    ∀ (fuel sz : Nat), sz ≤ l.length → l.length ≤ sz + fuel →
      extRight l l l.length l.length 0 0 fuel sz = l.length := by
  intro fuel
  induction fuel with
  | zero =>
    intro sz h1 h2
    simp only [extRight]
    omega
  | succ fuel ih =>
    intro sz h1 h2
    simp only [extRight]
    by_cases hlt : sz < l.length
    · rw [if_pos ⟨by omega, by omega, by trivial⟩]
      exact ih (sz + 1) (by omega) (by omega)
    · rw [if_neg (by omega)]
      omega

theorem findLongestMatch_self (l : List Char) :
    findLongestMatch l l 0 l.length 0 l.length = ⟨0, 0, l.length⟩ := by
  have hdiag := dpBest_self_diag l
  have hbnd := dpBest_bounds l l 0 l.length 0 l.length (Nat.zero_le _) (Nat.zero_le _)
  have hsum : (dpBest l l 0 l.length 0 l.length).i +
      (dpBest l l 0 l.length 0 l.length).size ≤ l.length := hbnd.2.2.1
  unfold findLongestMatch
  dsimp only
  rw [← hdiag, extLeft_self_diag l (dpBest l l 0 l.length 0 l.length).i
    (dpBest l l 0 l.length 0 l.length).size]
  dsimp only
  rw [extRight_self_diag l l.length
    ((dpBest l l 0 l.length 0 l.length).i + (dpBest l l 0 l.length 0 l.length).size)
    (by omega) (by omega)]

theorem matchTotal_self (l : List Char) : matchTotal l l = l.length := by
  unfold matchTotal
  simp only [matchTotalF]
  rw [findLongestMatch_self l]
  by_cases hn : l.length = 0
  · simp [hn]
  · simp only []
    rw [if_neg hn]
    rw [if_neg (by omega), if_neg (by omega)]
    omega

theorem ratioQ_self (l : List Char) : ratioQ l l = 1 := by
  unfold ratioQ ratioPair
  by_cases hn : l.length + l.length = 0
  · rw [if_pos hn]
    norm_num
  · rw [if_neg hn]
    dsimp only
    rw [matchTotal_self]
    have hl : (0 : ℚ) < ((l.length + l.length : Nat) : ℚ) := by
      exact_mod_cast Nat.pos_of_ne_zero hn
    rw [div_eq_one_iff_eq (ne_of_gt hl)]
    push_cast
    ring

/-- `similarity(x, x) = 1.0` whenever the normalized form of `x` is
non-empty (the spec's reflexivity property, corrected: normalization runs
first, so a non-empty `x` whose normalization is empty scores 0). -/
theorem similarity_self (x : String) (h : normalize x ≠ "") :
    similarity x x = 1 := by
  have hx : x ≠ "" := by
    intro he
    exact h (by rw [he]; rfl)
  unfold similarity similarityPair
  rw [if_neg (by intro hc; exact hx hc.1)]
  dsimp only
  rw [if_neg (by intro hc; rcases hc with hc | hc <;> exact h hc)]
  exact ratioQ_self (normalize x).data

theorem similarityPair_le_den (a b : String) :
    (similarityPair a b).1 ≤ (similarityPair a b).2 := by
  unfold similarityPair
  split
  · exact Nat.le_refl _
  · dsimp only
    split
    · exact Nat.zero_le _
    · exact ratioPair_le_den _ _

theorem similarity_nonneg (a b : String) : 0 ≤ similarity a b := by
  unfold similarity
  positivity

theorem similarity_le_one (a b : String) : similarity a b ≤ 1 := by
  unfold similarity
  have hd := similarityPair_den_pos a b
  have hn := similarityPair_le_den a b
  rw [div_le_one (by exact_mod_cast hd)]
  exact_mod_cast hn

/-! ## Claim C2 -/

/-- C2, counterexample.  The claim "similarity(x, x) == 1.0 for every
non-empty string x; ... it is symmetric" is false on the code at explicit
inputs: `similarity("!", "!") = 0.0` (the non-empty string `"!"` normalizes
to the empty string before the ratio is taken), and
`similarity("ba", "abca") = 2/3` while `similarity("abca", "ba") = 1/3`
(the greedy block decomposition of `SequenceMatcher` is order-dependent).
-/
theorem C2_counterexample :
    ("!" : String) ≠ "" ∧ similarity "!" "!" = 0 ∧
      similarity "ba" "abca" ≠ similarity "abca" "ba" := by
  have h1 : similarityPair "!" "!" = (0, 1) := by decide
  have h2 : similarityPair "ba" "abca" = (4, 6) := by decide
  have h3 : similarityPair "abca" "ba" = (2, 6) := by decide
  refine ⟨by decide, ?_, ?_⟩
  · unfold similarity
    rw [h1]
    norm_num
  · unfold similarity
    rw [h2, h3]
    norm_num

/-- C2 (amended): `similarity(x, x) == 1.0` for every `x` whose
*normalized* form is non-empty (in particular every non-empty string
containing a word character); `similarity("", "") == 1.0`;
`similarity("", y) == 0.0` for every non-empty `y`; and the value always
lies in `[0, 1]`.  (The original claim's reflexivity for all non-empty `x`
and its symmetry are refuted by `C2_counterexample`.) -/
theorem C2_theorem :
    (∀ x : String, normalize x ≠ "" → similarity x x = 1) ∧
      similarity "" "" = 1 ∧
      (∀ y : String, y ≠ "" → similarity "" y = 0) ∧
      (∀ a b : String, 0 ≤ similarity a b ∧ similarity a b ≤ 1) := by
  refine ⟨similarity_self, ?_, ?_, fun a b => ⟨similarity_nonneg a b, similarity_le_one a b⟩⟩
  · have h : similarityPair "" "" = (1, 1) := by decide
    unfold similarity
    rw [h]
    norm_num
  · intro y hy
    unfold similarity similarityPair
    rw [if_neg (by intro hc; exact hy hc.2)]
    dsimp only
    rw [if_pos (show normalize "" = "" ∨ normalize y = "" from Or.inl rfl)]
    norm_num

/-- Closed witness for `C2_theorem` at concrete inputs. -/
theorem C2_theorem_witness :
    (normalize "Ab c" ≠ "" ∧ similarity "Ab c" "Ab c" = 1) ∧
      (("y" : String) ≠ "" ∧ similarity "" "y" = 0) := by
  constructor
  · exact ⟨by decide, C2_theorem.1 "Ab c" (by decide)⟩
  · exact ⟨by decide, C2_theorem.2.2.1 "y" (by decide)⟩

/-! ## Claim C9 -/

theorem toLower_not_upper (c : Char) : (Char.toLower c).isUpper = false := by
  have hofnat : ∀ (m : Nat), m < 55296 → (Char.ofNat m).toNat = m := by
    intro m h
    rw [Char.ofNat, dif_pos (Or.inl h)]
    rfl
  unfold Char.toLower
  dsimp only
  split
  · rename_i h
    have hv : (Char.ofNat (c.toNat + 32)).toNat = c.toNat + 32 := hofnat _ (by omega)
    unfold Char.isUpper
    have hnle : ¬ ((Char.ofNat (c.toNat + 32)).val ≤ 90) := by
      intro hle
      have h2 := @UInt32.toNat_le_of_le _ 90 (by decide) hle
      have hvv : (Char.ofNat (c.toNat + 32)).val.toNat = c.toNat + 32 := hv
      omega
    simp [hnle]
  · rename_i h
    unfold Char.isUpper
    by_cases h65 : (65 : UInt32) ≤ c.val
    · have h65' : 65 ≤ c.toNat := @UInt32.le_toNat_of_le _ 65 (by decide) h65
      have h90 : ¬ c.toNat ≤ 90 := fun hc => h ⟨h65', hc⟩
      have hnle : ¬ (c.val ≤ 90) :=
        fun hle => h90 (@UInt32.toNat_le_of_le _ 90 (by decide) hle)
      simp [hnle]
    · simp [GE.ge, h65]

theorem mem_collapseSpaces (l : List Char) (c : Char) :
    c ∈ collapseSpaces l → (c ∈ l ∧ isSpaceChar c = false) ∨ c = ' ' := by
  induction l with
  | nil => intro h; simp [collapseSpaces] at h
  | cons x rest ih =>
    intro h
    simp only [collapseSpaces] at h
    by_cases hx : isSpaceChar x
    · rw [if_pos hx] at h
      by_cases hy : (collapseSpaces rest).head? = some ' '
      · rw [if_pos hy] at h
        rcases ih h with ⟨h1, h2⟩ | h3
        · exact Or.inl ⟨List.mem_cons_of_mem _ h1, h2⟩
        · exact Or.inr h3
      · rw [if_neg hy] at h
        rcases List.mem_cons.mp h with hc | hc
        · exact Or.inr hc
        · rcases ih hc with ⟨h1, h2⟩ | h3
          · exact Or.inl ⟨List.mem_cons_of_mem _ h1, h2⟩
          · exact Or.inr h3
    · rw [if_neg hx] at h
      rcases List.mem_cons.mp h with hc | hc
      · subst hc
        exact Or.inl ⟨List.mem_cons_self _ _, Bool.eq_false_iff.mpr hx⟩
      · rcases ih hc with ⟨h1, h2⟩ | h3
        · exact Or.inl ⟨List.mem_cons_of_mem _ h1, h2⟩
        · exact Or.inr h3

/-- No two adjacent spaces survive `collapseSpaces`. -/
def NoDoubleSpace (l : List Char) : Prop :=
  List.Chain' (fun a b => ¬(a = ' ' ∧ b = ' ')) l

theorem collapseSpaces_chain (l : List Char) : NoDoubleSpace (collapseSpaces l) := by
  unfold NoDoubleSpace
  induction l with
  | nil => exact List.chain'_nil
  | cons x rest ih =>
    simp only [collapseSpaces]
    by_cases hx : isSpaceChar x
    · rw [if_pos hx]
      by_cases hy : (collapseSpaces rest).head? = some ' '
      · rw [if_pos hy]
        exact ih
      · rw [if_neg hy]
        rw [List.chain'_cons']
        refine ⟨?_, ih⟩
        intro b hb
        intro hcon
        exact hy (by rw [hb, hcon.2])
    · rw [if_neg hx]
      rw [List.chain'_cons']
      refine ⟨?_, ih⟩
      intro b _
      intro hcon
      rw [hcon.1] at hx
      simp [isSpaceChar] at hx

theorem dropWhile_head_not {p : Char → Bool} :
    ∀ (l : List Char) (c : Char), (l.dropWhile p).head? = some c → p c = false := by
  intro l
  induction l with
  | nil => intro c h; simp [List.dropWhile] at h
  | cons x rest ih =>
    intro c h
    rw [List.dropWhile_cons] at h
    split at h
    · exact ih c h
    · rename_i hp
      simp at h
      subst h
      exact Bool.eq_false_iff.mpr hp

theorem trimSpaces_head (l : List Char) : (trimSpaces l).head? ≠ some ' ' := by
  intro h
  have := dropWhile_head_not _ _ h
  simp at this

theorem getLast?_dropWhile_not {p : Char → Bool} (l : List Char) (c : Char)
    (h : (l.dropWhile p).getLast? = some c) : l.getLast? = some c := by
  obtain ⟨pre, hpre⟩ := List.dropWhile_suffix (l := l) p
  rw [← hpre]
  rcases hd : l.dropWhile p with _ | ⟨z, t⟩
  · rw [hd] at h; simp at h
  · rw [hd] at h
    rw [List.getLast?_append_of_ne_nil]
    · exact h
    · simp

theorem trimSpaces_last (l : List Char) : (trimSpaces l).getLast? ≠ some ' ' := by
  intro h
  unfold trimSpaces dropLeadSpaces at h
  have h2 := getLast?_dropWhile_not _ _ h
  rw [List.getLast?_reverse] at h2
  have := dropWhile_head_not _ _ h2
  simp at this

theorem trimSpaces_chain (l : List Char) (h : NoDoubleSpace l) :
    NoDoubleSpace (trimSpaces l) := by
  unfold NoDoubleSpace at h ⊢
  unfold trimSpaces dropLeadSpaces
  have hsym : ∀ (m : List Char), List.Chain' (fun a b => ¬(a = ' ' ∧ b = ' ')) m →
      List.Chain' (fun a b => ¬(a = ' ' ∧ b = ' ')) m.reverse := by
    intro m hm
    rw [List.chain'_reverse]
    exact hm.imp (fun a b hab hx => hab ⟨hx.2, hx.1⟩)
  have h1 := hsym _ h
  have h2 := h1.suffix (List.dropWhile_suffix (fun c => decide (c = ' ')))
  have h3 := hsym _ h2
  exact h3.suffix (List.dropWhile_suffix (fun c => decide (c = ' ')))

theorem mem_trimSpaces (l : List Char) (c : Char) (h : c ∈ trimSpaces l) : c ∈ l := by
  unfold trimSpaces dropLeadSpaces at h
  have h1 := (List.dropWhile_suffix _).subset h
  rw [List.mem_reverse] at h1
  have h2 := (List.dropWhile_suffix _).subset h1
  rw [List.mem_reverse] at h2
  exact h2

/-- Character class of `normalize_text` output: lowercase letters, digits,
underscores and single spaces. -/
theorem normalize_chars (s : String) :
    ∀ c ∈ (normalize s).data, (c.isLower || c.isDigit || c = '_' || c = ' ') = true := by
  intro c hc
  unfold normalize at hc
  simp only [String.data] at hc
  have hc' := mem_trimSpaces _ _ hc
  rcases mem_collapseSpaces _ _ hc' with ⟨h1, h2⟩ | h3
  · rw [List.mem_filter] at h1
    obtain ⟨hmap, hpred⟩ := h1
    rw [List.mem_map] at hmap
    obtain ⟨d, _, hd⟩ := hmap
    simp only [Bool.or_eq_true, decide_eq_true_eq] at hpred
    rcases hpred with hword | hspace
    · unfold isWordChar at hword
      simp only [Bool.or_eq_true, decide_eq_true_eq] at hword
      rcases hword with halnum | hund
      · unfold Char.isAlphanum Char.isAlpha at halnum
        have hup : c.isUpper = false := by
          rw [← hd]
          exact toLower_not_upper d
        simp only [Bool.or_eq_true] at halnum
        rcases halnum with (hu | hl) | hdig
        · rw [hup] at hu
          exact absurd hu (by simp)
        · simp [hl]
        · simp [hdig]
      · simp [hund]
    · rw [hspace] at h2
      exact absurd h2 (by simp)
  · simp [h3]

/-- C9, counterexample.  `normalize_text` keeps the underscore (Python's
`\w` includes it), so `normalize("_") = "_"`, whose single character is
neither a lowercase letter, a digit, nor a space — refuting "strips all
characters that are not letters, digits, or whitespace" and "every
character of the result is a lowercase letter, a digit, or a single
interior space". -/
theorem C9_counterexample :
    normalizeText (some "_") = "_" ∧
      ¬(∀ c ∈ (normalizeText (some "_")).data,
          c.isLower = true ∨ c.isDigit = true ∨ c = ' ') := by
  constructor
  · decide
  · intro h
    have := h '_' (by decide)
    rcases this with h1 | h1 | h1 <;> revert h1 <;> decide

/-- C9 (amended): `normalize` lower-cases, strips every character that is
neither a word character (letter, digit, or underscore) nor whitespace,
collapses whitespace runs to a single space and trims — so every character
of the result is a lowercase letter, a digit, an underscore, or a single
interior space (no leading, trailing, or doubled spaces), and `normalize`
of null or empty input is the empty string.  (Stated for ASCII input; the
embedding models Python's Unicode-aware `\w`, `\s` and `lower()` at ASCII
precision.) -/
theorem C9_theorem (s : String) (hascii : ∀ c ∈ s.data, c.toNat < 128) :
    (∀ c ∈ (normalizeText (some s)).data,
        (c.isLower || c.isDigit || c = '_' || c = ' ') = true) ∧
      (normalizeText (some s)).data.head? ≠ some ' ' ∧
      (normalizeText (some s)).data.getLast? ≠ some ' ' ∧
      NoDoubleSpace (normalizeText (some s)).data ∧
      normalizeText none = "" ∧ normalizeText (some "") = "" := by
  refine ⟨normalize_chars s, ?_, ?_, ?_, rfl, rfl⟩
  · exact trimSpaces_head _
  · exact trimSpaces_last _
  · exact trimSpaces_chain _ (collapseSpaces_chain _)

/-- Closed witness for `C9_theorem` at a concrete input. -/
theorem C9_theorem_witness :
    (∀ c ∈ ("  Ab_ 7,c!  " : String).data, c.toNat < 128) ∧
      normalizeText (some "  Ab_ 7,c!  ") = "ab_ 7c" ∧
      (∀ c ∈ (normalizeText (some "  Ab_ 7,c!  ")).data,
        (c.isLower || c.isDigit || c = '_' || c = ' ') = true) := by
  have h := C9_theorem "  Ab_ 7,c!  " (by decide)
  exact ⟨by decide, by decide, h.1⟩

/-! ## Claim C10 -/

theorem pyStrip_of_all_space (l : List Char) (h : ∀ c ∈ l, isSpaceChar c = true) :
    pyStrip l = [] := by
  unfold pyStrip
  rw [List.dropWhile_eq_nil_iff.mpr h]
  rfl

/-- C10: `find_best_matches_for_message` of the empty message is `[]` (the
empty message also produces zero pieces, so no match is attempted and no
fallback sentence is emitted), and `api_chat` rejects a missing, empty, or
whitespace-only message with the "Empty message" error before any matching.
-/
theorem C10_theorem (s : Store) (m : String) (pick : Nat → Nat)
    (hws : ∀ c ∈ m.data, isSpaceChar c = true) :
    findBestMatches s "" = [] ∧
      piecesOf "" = [] ∧
      apiChat s none pick = .err "Empty message" ∧
      apiChat s (some m) pick = .err "Empty message" := by
  have hm : pyStripS m = "" := by
    unfold pyStripS
    rw [pyStrip_of_all_space m.data hws]
  refine ⟨?_, by decide, ?_, ?_⟩
  · unfold findBestMatches
    rw [if_pos rfl]
  · unfold apiChat
    rw [show pyStripS (Option.getD none "") = "" from rfl, if_pos rfl]
  · unfold apiChat
    rw [show Option.getD (some m) "" = m from rfl, hm, if_pos rfl]

/-- Closed witness for `C10_theorem` at a concrete store and a
whitespace-only message. -/
theorem C10_theorem_witness :
    apiChat emptyStore (some "  \t ") (fun _ => 0) = ChatResp.err "Empty message" ∧
      findBestMatches emptyStore "" = [] := by
  have h := C10_theorem emptyStore "  \t " (fun _ => 0) (by decide)
  exact ⟨h.2.2.2, h.1⟩

/-! ## Claim C7 -/

/-- C7, counterexample.  A `PATCH` on group id `5`, which does not exist in
the empty store, is answered `ok` — not with a not-found error — and it
inserts a question row under the dangling id, so the store is *not* left as
it was; a `DELETE` on the same absent id is likewise answered `ok`. -/
theorem C7_counterexample :
    (apiGroupPatch emptyStore 5 none (.list ["hello"]) .null).2 = .ok ∧
      (apiGroupPatch emptyStore 5 none (.list ["hello"]) .null).1 ≠ emptyStore ∧
      (apiGroupPatch emptyStore 5 none (.list ["hello"]) .null).1.qrows =
        [⟨"hello", "hello", 5⟩] ∧
      (apiGroupDelete emptyStore 5).2 = .ok := by
  refine ⟨rfl, by decide, by decide, rfl⟩

/-- C7 (amended): neither endpoint ever reports a not-found error — both
always reply `ok`.  On a group id absent from the whole store, `DELETE` is
a genuine no-op, and `PATCH` with empty (null) inputs and outputs is a
no-op; but a `PATCH` carrying inputs or outputs inserts the new rows under
the dangling id (refuting the original claim's no-op, per
`C7_counterexample`). -/
theorem C7_theorem (s : Store) (gid : Nat) (name : Option String)
    (hg : ∀ g ∈ s.groups, g.gid ≠ gid)
    (hq : ∀ r ∈ s.qrows, r.gid ≠ gid)
    (ha : ∀ r ∈ s.arows, r.gid ≠ gid) :
    apiGroupDelete s gid = (s, .ok) ∧
      apiGroupPatch s gid name .null .null = (s, .ok) ∧
      (∀ inRaw outRaw, (apiGroupPatch s gid name inRaw outRaw).2 = .ok) ∧
      getGroupById s gid = none := by
  have hgf : s.groups.filter (fun g => g.gid ≠ gid) = s.groups :=
    List.filter_eq_self.mpr (fun g hgm => decide_eq_true (hg g hgm))
  have hqf : s.qrows.filter (fun r => r.gid ≠ gid) = s.qrows :=
    List.filter_eq_self.mpr (fun r hr => decide_eq_true (hq r hr))
  have haf : s.arows.filter (fun r => r.gid ≠ gid) = s.arows :=
    List.filter_eq_self.mpr (fun r hr => decide_eq_true (ha r hr))
  have hmap : ∀ nm : String, s.groups.map (fun g =>
      if g.gid = gid then
        ⟨g.gid, if nm = "" then none else some (sanitizeText nm)⟩
      else g) = s.groups := by
    intro nm
    conv_rhs => rw [← List.map_id s.groups]
    exact List.map_congr_left (fun g hgm => by rw [if_neg (hg g hgm)]; rfl)
  refine ⟨?_, ?_, fun _ _ => rfl, ?_⟩
  · unfold apiGroupDelete deleteGroup
    rw [hgf, hqf, haf]
  · unfold apiGroupPatch updateGroup
    dsimp only
    rw [show validateInputs (ensureList RawField.null) = [] from rfl]
    rw [List.foldl_nil, List.foldl_nil, hqf, haf, hmap]
  · unfold getGroupById
    rw [List.find?_eq_none.mpr (fun g hgm => by simp [hg g hgm])]
    rfl

/-- Closed witness for `C7_theorem`: a store holding group `1`, addressed
at the absent id `2`. -/
theorem C7_theorem_witness :
    apiGroupDelete (createGroup emptyStore "g" (.list ["hi"]) (.list ["yo"])).1 2 =
        ((createGroup emptyStore "g" (.list ["hi"]) (.list ["yo"])).1, .ok) ∧
      apiGroupPatch (createGroup emptyStore "g" (.list ["hi"]) (.list ["yo"])).1 2
          none .null .null =
        ((createGroup emptyStore "g" (.list ["hi"]) (.list ["yo"])).1, .ok) := by
  have h := C7_theorem (createGroup emptyStore "g" (.list ["hi"]) (.list ["yo"])).1 2
    none (by decide) (by decide) (by decide)
  exact ⟨h.1, h.2.1⟩

/-! ## Claim C3 -/

theorem selectLoop_eq_find (recent outs : List String) :
    selectLoop recent outs = outs.find? (fun r => !recent.contains r) := by
  induction outs with
  | nil => rfl
  | cons o rest ih =>
    unfold selectLoop
    by_cases h : recent.contains o = true
    · rw [if_pos h, ih, List.find?_cons_of_neg _ (by simpa using h)]
    · rw [if_neg h, List.find?_cons_of_pos _ (by simpa using h)]

/-- C3, counterexample.  When every candidate is in the recent-response
window, the selector returns the first stored output but performs *no*
window update — the window stays `["a"]` instead of receiving the pushed
choice — and on a fresh window the choice is the *first* output, a
deterministic scan rather than a uniform draw. -/
theorem C3_counterexample :
    selectOutput ["a"] ["a"] = some ("a", ["a"]) ∧
      selectOutput ["a", "b"] [] = some ("a", ["a"]) ∧
      selectOutput ["b", "a"] [] = some ("b", ["b"]) := by
  decide

/-- C3 (amended): the chatbot selector scans the stored outputs in order
and picks the *first* one absent from the window (not a uniform draw),
pushing it into the window; when every candidate is recent it falls back to
the first stored output *without* touching the window; a push appends and,
beyond capacity 5, evicts the oldest entry; and the V2 selector
`get_random_answer_for_group` draws over *all* stored answers of the group
— every index is reachable — with no recent-response window at all. -/
theorem C3_theorem :
    (∀ recent outs,
        selectLoop recent outs = outs.find? (fun r => !recent.contains r)) ∧
      (∀ o rest recent r, selectLoop recent (o :: rest) = some r →
        selectOutput (o :: rest) recent = some (r, pushRecent recent r)) ∧
      (∀ o rest recent, selectLoop recent (o :: rest) = none →
        selectOutput (o :: rest) recent = some (o, recent)) ∧
      (∀ recent (r : String), recent.length ≤ 4 →
        pushRecent recent r = recent ++ [r]) ∧
      (∀ recent (r : String), recent.length = 5 →
        pushRecent recent r = recent.tail ++ [r]) ∧
      (∀ s gid i,
        i < ((s.arows.filter (fun a => a.gid = gid)).map (fun a => a.answer)).length →
        getRandomAnswerForGroup s gid i =
          ((s.arows.filter (fun a => a.gid = gid)).map (fun a => a.answer))[i]?) := by
  refine ⟨selectLoop_eq_find, ?_, ?_, ?_, ?_, ?_⟩
  · intro o rest recent r h
    unfold selectOutput
    rw [h]
  · intro o rest recent h
    unfold selectOutput
    rw [h]
  · intro recent r h
    simp only [pushRecent]
    rw [if_neg (by simp; omega)]
  · intro recent r h
    simp only [pushRecent]
    rw [if_pos (by simp [h]), List.drop_append_of_le_length (by omega),
      List.drop_one]
  · intro s gid i hi
    unfold getRandomAnswerForGroup
    rcases hans : (s.arows.filter (fun a => a.gid = gid)).map (fun a => a.answer)
      with _ | ⟨a, rest⟩
    · rw [hans] at hi
      simp at hi
    · rw [hans] at hi
      rw [hans]
      dsimp only
      rw [Nat.mod_eq_of_lt hi, List.getD_eq_getElem (a :: rest) a hi,
        List.getElem?_eq_getElem hi]

/-- Closed witness for `C3_theorem` at concrete windows and stores. -/
theorem C3_theorem_witness :
    selectOutput ["a", "b"] ["a"] = some ("b", ["a", "b"]) ∧
      selectOutput ["a"] ["a"] = some ("a", ["a"]) ∧
      pushRecent ["1", "2", "3", "4", "5"] "6" = ["2", "3", "4", "5", "6"] ∧
      getRandomAnswerForGroup ⟨[⟨1, none⟩], [], [⟨1, "x"⟩, ⟨1, "y"⟩], 2⟩ 1 1 =
        some "y" := by
  refine ⟨?_, ?_, ?_, ?_⟩
  · rw [C3_theorem.2.1 "a" ["b"] ["a"] "b" (by decide)]
    decide
  · rw [C3_theorem.2.2.1 "a" [] ["a"] (by decide)]
  · rw [C3_theorem.2.2.2.2.1 ["1", "2", "3", "4", "5"] "6" (by decide)]
    decide
  · rw [C3_theorem.2.2.2.2.2 ⟨[⟨1, none⟩], [], [⟨1, "x"⟩, ⟨1, "y"⟩], 2⟩ 1 1 (by decide)]
    decide

/-! ## Claim C5 -/

theorem mergeOutputs_cons (outs : List String) (n : String) (rest : List String) :
    mergeOutputs outs (n :: rest) =
      mergeOutputs (if outs.contains n then outs else outs ++ [n]) rest := rfl

theorem mem_mergeOutputs_left (new : List String) :
    ∀ outs x, x ∈ outs → x ∈ mergeOutputs outs new := by
  induction new with
  | nil => intro outs x h; exact h
  | cons n rest ih =>
    intro outs x h
    rw [mergeOutputs_cons]
    by_cases hc : outs.contains n = true
    · rw [if_pos hc]; exact ih _ x h
    · rw [if_neg hc]; exact ih _ x (List.mem_append_left _ h)

theorem mem_mergeOutputs_right (new : List String) :
    ∀ outs x, x ∈ new → x ∈ mergeOutputs outs new := by
  induction new with
  | nil => intro outs x h; simp at h
  | cons n rest ih =>
    intro outs x h
    rw [mergeOutputs_cons]
    rcases List.mem_cons.mp h with hx | hx
    · by_cases hc : outs.contains n = true
      · rw [if_pos hc]
        exact mem_mergeOutputs_left rest outs x (by rw [hx]; simpa using hc)
      · rw [if_neg hc]
        exact mem_mergeOutputs_left rest _ x (by simp [hx])
    · exact ih _ x hx

theorem mergeOutputs_of_subset (new : List String) :
    ∀ outs, (∀ x ∈ new, x ∈ outs) → mergeOutputs outs new = outs := by
  induction new with
  | nil => intro outs _; rfl
  | cons n rest ih =>
    intro outs h
    rw [mergeOutputs_cons, if_pos (by simpa using h n (List.mem_cons_self n rest))]
    exact ih outs (fun x hx => h x (List.mem_cons_of_mem _ hx))

theorem mergeOutputs_idem (outs new : List String) :
    mergeOutputs (mergeOutputs outs new) new = mergeOutputs outs new :=
  mergeOutputs_of_subset new _ (fun x hx => mem_mergeOutputs_right new _ x hx)

theorem any_contains_self (i : List String) (hne : i ≠ []) :
    i.any (fun t => i.contains t) = true := by
  rcases i with _ | ⟨t, rest⟩
  · exact absurd rfl hne
  · exact List.any_eq_true.mpr ⟨t, List.mem_cons_self t rest, by simp⟩

theorem addExampleC_idem (input output : String) :
    ∀ kb, addExampleC input output (addExampleC input output kb) =
      addExampleC input output kb := by
  intro kb
  induction kb with
  | nil => simp [addExampleC]
  | cons e rest ih =>
    cases e with
    | «example» i o =>
      by_cases hi : i = input
      · simp [addExampleC, hi]
      · simp only [addExampleC, if_neg hi]
        rw [ih]
    | simple tag c => simp only [addExampleC]; rw [ih]
    | assoc a b c => simp only [addExampleC]; rw [ih]
    | phrase a b => simp only [addExampleC]; rw [ih]

theorem addExampleM_idem (input output : String) :
    ∀ kb, addExampleM input output (addExampleM input output kb) =
      addExampleM input output kb := by
  intro kb
  induction kb with
  | nil => simp [addExampleM]
  | cons e rest ih =>
    cases e with
    | «example» i o =>
      by_cases hi : i = input
      · simp [addExampleM, hi]
      · simp only [addExampleM, if_neg hi]
        rw [ih]
    | simple tag c => simp only [addExampleM]; rw [ih]
    | assoc a b c => simp only [addExampleM]; rw [ih]
    | phrase a b => simp only [addExampleM]; rw [ih]

theorem addPhraseC_idem (inputs outputs : List String) (hne : inputs ≠ []) :
    ∀ kb, addPhraseC inputs outputs (addPhraseC inputs outputs kb) =
      addPhraseC inputs outputs kb := by
  intro kb
  induction kb with
  | nil =>
    simp only [addPhraseC]
    rw [if_pos (any_contains_self inputs hne),
      mergeOutputs_of_subset outputs outputs (fun x hx => hx)]
  | cons e rest ih =>
    cases e with
    | phrase i o =>
      by_cases hc : inputs.any (fun t => i.contains t) = true
      · simp only [addPhraseC, if_pos hc]
        rw [mergeOutputs_idem]
      · simp only [addPhraseC, if_neg hc]
        rw [ih]
    | simple tag c => simp only [addPhraseC]; rw [ih]
    | assoc a b c => simp only [addPhraseC]; rw [ih]
    | «example» a b => simp only [addPhraseC]; rw [ih]

theorem addPhraseM_idem (input : String) (outputs : List String) :
    ∀ kb, addPhraseM input outputs (addPhraseM input outputs kb) =
      addPhraseM input outputs kb := by
  intro kb
  induction kb with
  | nil =>
    simp only [addPhraseM]
    rw [if_pos (by trivial), mergeOutputs_of_subset outputs outputs (fun x hx => hx)]
  | cons e rest ih =>
    cases e with
    | phrase i o =>
      by_cases hi : i = input
      · simp only [addPhraseM, if_pos hi]
        rw [mergeOutputs_idem]
      · simp only [addPhraseM, if_neg hi]
        rw [ih]
    | simple tag c => simp only [addPhraseM]; rw [ih]
    | assoc a b c => simp only [addPhraseM]; rw [ih]
    | «example» a b => simp only [addPhraseM]; rw [ih]

/-- The dedup-guarded append (`if any(matches) ... else append`) of the
`association`/simple branches is idempotent whenever the new entry matches
its own dedup predicate. -/
theorem anyGuard_idem {α : Type} (f : α → Bool) (kb : List α) (e : α)
    (hfe : f e = true) :
    (if (if kb.any f then kb else kb ++ [e]).any f
      then (if kb.any f then kb else kb ++ [e])
      else (if kb.any f then kb else kb ++ [e]) ++ [e]) =
      (if kb.any f then kb else kb ++ [e]) := by
  by_cases h : kb.any f = true
  · rw [if_pos h, if_pos h]
  · rw [if_neg h,
      if_pos (by rw [List.any_append, Bool.eq_false_iff.mpr h]; simp [hfe])]

/-- C5, counterexample.  A `phrase` entry whose `inputs` list is empty
never intersects any trigger set — in particular not its own — so adding
it twice to the chatbot.py knowledge base appends two copies: the
collection grows from one entry to two, refuting idempotence "for every
entry type and every knowledge base". -/
theorem C5_counterexample :
    addOrMergeEntryC (addOrMergeEntryC [] (.phrase [] ["x"])) (.phrase [] ["x"]) =
      [.phrase [] ["x"], .phrase [] ["x"]] ∧
      (addOrMergeEntryC [] (.phrase [] ["x"])).length = 1 := by
  decide

/-- C5 (amended): `add_or_merge_entry` is idempotent — applying the same
entry twice yields the very same knowledge collection as applying it once —
for every entry and knowledge base in the `main.py` model, and for every
entry in the `chatbot.py` model except a `phrase` whose trigger list is
empty (such an entry matches nothing, not even itself, and is appended
again; see `C5_counterexample`). -/
theorem C5_theorem :
    (∀ (kb : List CEntry) (e : CEntry),
      (∀ i o, e = CEntry.phrase i o → i ≠ []) →
      addOrMergeEntryC (addOrMergeEntryC kb e) e = addOrMergeEntryC kb e) ∧
      (∀ (kb : List MEntry) (e : MEntry),
        addOrMergeEntryM (addOrMergeEntryM kb e) e = addOrMergeEntryM kb e) := by
  constructor
  · intro kb e hph
    cases e with
    | assoc s p o =>
      simp only [addOrMergeEntryC]
      exact anyGuard_idem _ kb _ (by simp)
    | simple tag c =>
      simp only [addOrMergeEntryC]
      exact anyGuard_idem _ kb _ (by simp)
    | «example» i o => exact addExampleC_idem i o kb
    | phrase i o => exact addPhraseC_idem i o (hph i o rfl) kb
  · intro kb e
    cases e with
    | assoc s p o =>
      simp only [addOrMergeEntryM]
      exact anyGuard_idem _ kb _ (by simp)
    | simple tag c =>
      simp only [addOrMergeEntryM]
      exact anyGuard_idem _ kb _ (by simp)
    | «example» i o => exact addExampleM_idem i o kb
    | phrase i o => exact addPhraseM_idem i o kb

/-- Closed witness for `C5_theorem` at concrete entries. -/
theorem C5_theorem_witness :
    addOrMergeEntryC (addOrMergeEntryC [] (.phrase ["hi"] ["yo"]))
        (.phrase ["hi"] ["yo"]) =
      addOrMergeEntryC [] (.phrase ["hi"] ["yo"]) ∧
      addOrMergeEntryM (addOrMergeEntryM [] (.simple .fact "Sun is hot"))
          (.simple .fact "Sun is hot") =
        addOrMergeEntryM [] (.simple .fact "Sun is hot") := by
  exact ⟨C5_theorem.1 [] (.phrase ["hi"] ["yo"])
      (fun i o h => by cases h; decide),
    C5_theorem.2 [] (.simple .fact "Sun is hot")⟩

/-! ## Claim C6 -/

/-- C6: the arithmetic shortcut returns the stringified result for a
well-formed rewritten expression (`"2 plus 2"` → `"4"`, before any fuzzy
matching, whatever the knowledge base and window); an evaluation failure —
malformed expression or division by zero — yields `none` and control falls
through to normal knowledge matching without an error: on an empty
knowledge base `"10 divided by 0"` reaches the knowledge-matching fallback
sentence, and with a matching phrase entry it is answered from knowledge.
-/
theorem C6_theorem :
    tryMath "2 plus 2" = some "4" ∧
      tryMath "10 divided by 0" = none ∧
      tryMath "2 plus" = none ∧
      (∀ (kb : List CEntry) (recent : List String),
        answerQuestion kb "2 plus 2" recent = ("4", recent)) ∧
      (∀ recent : List String, answerQuestion [] "10 divided by 0" recent =
        ("I don't know the answer to that.", recent)) ∧
      answerQuestion [CEntry.phrase ["10 divided by 0"] ["see knowledge"]]
        "10 divided by 0" [] = ("see knowledge", ["see knowledge"]) := by
  refine ⟨by decide, by decide, by decide, ?_, ?_,
    by set_option maxRecDepth 4000 in decide⟩
  · intro kb recent
    unfold answerQuestion
    rw [show tryMath "2 plus 2" = some "4" from by decide]
  · intro recent
    rfl

/-! ## Claim C4 -/

/-- Membership in the `norm_map` fold: an entry is either inherited from
the accumulator or is the first row of the remaining list carrying its
(non-empty) normalized key, provided the accumulator does not know that key
yet. -/
theorem normMap_fold_mem (qrows : List QRow) :
    ∀ (m : List (String × Nat × String)) (k : String) (g : Nat) (q : String),
      ((k, g, q) ∈ qrows.foldl (fun m r =>
          if r.qnorm = "" || m.any (fun e => e.1 = r.qnorm) then m
          else m ++ [(r.qnorm, r.gid, r.question)]) m ↔
        ((k, g, q) ∈ m ∨
          ((∀ e ∈ m, e.1 ≠ k) ∧ k ≠ "" ∧
            qrows.find? (fun r => r.qnorm = k) = some ⟨q, k, g⟩))) := by
  induction qrows with
  | nil =>
    intro m k g q
    simp
  | cons r rest ih =>
    intro m k g q
    rw [List.foldl_cons]
    by_cases hc : (r.qnorm = "" || m.any (fun e => e.1 = r.qnorm)) = true
    · rw [if_pos hc]
      rw [ih m k g q]
      simp only [Bool.or_eq_true, decide_eq_true_eq, List.any_eq_true] at hc
      by_cases hk : r.qnorm = k
      · rw [List.find?_cons_of_pos _ (by simp [hk])]
        have himp : ¬((∀ e ∈ m, e.1 ≠ k) ∧ k ≠ "") := by
          rintro ⟨hall, hk0⟩
          rcases hc with hq0 | ⟨e, hem, he⟩
          · exact hk0 (by rw [← hk]; exact hq0)
          · exact hall e hem (by rw [he]; exact hk)
        constructor
        · rintro (hm | ⟨hall, hk0, _⟩)
          · exact Or.inl hm
          · exact absurd ⟨hall, hk0⟩ himp
        · rintro (hm | ⟨hall, hk0, _⟩)
          · exact Or.inl hm
          · exact absurd ⟨hall, hk0⟩ himp
      · rw [List.find?_cons_of_neg _ (by simp [hk])]
    · rw [if_neg hc]
      rw [ih (m ++ [(r.qnorm, r.gid, r.question)]) k g q]
      simp only [Bool.or_eq_true, decide_eq_true_eq, List.any_eq_true, not_or,
        not_exists] at hc
      obtain ⟨hr0, hex⟩ := hc
      have hrm : ∀ e ∈ m, e.1 ≠ r.qnorm := by
        intro e hem he
        exact hex e (by simp [hem, he])
      by_cases hk : r.qnorm = k
      · rw [List.find?_cons_of_pos _ (by simp [hk])]
        subst hk
        constructor
        · rintro (hm | ⟨hall, hk0, hfind⟩)
          · rcases List.mem_append.mp hm with hm1 | hm2
            · exact Or.inl hm1
            · simp only [List.mem_singleton, Prod.mk.injEq] at hm2
              obtain ⟨-, h2, h3⟩ := hm2
              refine Or.inr ⟨hrm, hr0, ?_⟩
              rw [show (⟨q, r.qnorm, g⟩ : QRow) = r from by
                cases r; simp_all]
          · exact (hall (r.qnorm, r.gid, r.question)
              (List.mem_append_right _ (by simp)) rfl).elim
        · rintro (hm | ⟨hall, hk0, hfind⟩)
          · exact Or.inl (List.mem_append_left _ hm)
          · have hr := Option.some.inj hfind
            have h1 : r.question = q := by rw [hr]
            have h2 : r.gid = g := by rw [hr]
            refine Or.inl (List.mem_append_right _ ?_)
            simp [h1, h2]
      · rw [List.find?_cons_of_neg _ (by simp [hk])]
        constructor
        · rintro (hm | ⟨hall, hk0, hfind⟩)
          · rcases List.mem_append.mp hm with hm1 | hm2
            · exact Or.inl hm1
            · simp only [List.mem_singleton, Prod.mk.injEq] at hm2
              exact absurd hm2.1.symm hk
          · exact Or.inr ⟨fun e hem => hall e (List.mem_append_left _ hem), hk0, hfind⟩
        · rintro (hm | ⟨hall, hk0, hfind⟩)
          · exact Or.inl (List.mem_append_left _ hm)
          · refine Or.inr ⟨?_, hk0, hfind⟩
            intro e hem
            rcases List.mem_append.mp hem with h1 | h2
            · exact hall e h1
            · simp only [List.mem_singleton] at h2
              rw [h2]
              exact hk

/-- C4, counterexample.  Creating group 1 with input "hello" and then group
2 with input "Hello!" stores *two* question rows with the same normalized
form `"hello"` under different group ids: the second insert is not a no-op,
because the UNIQUE constraint of `questions` is on the raw text, not the
normalized form — the store-wide uniqueness invariant is false. -/
theorem C4_counterexample :
    ((createGroup (createGroup emptyStore "g1" (.list ["hello"]) (.list ["a"])).1
        "g2" (.list ["Hello!"]) (.list ["b"])).1).qrows =
      [⟨"hello", "hello", 1⟩, ⟨"Hello!", "hello", 2⟩] ∧
      normalize "Hello!" = normalize "hello" := by
  refine ⟨by decide, by decide⟩

/-- C4 (amended): the uniqueness the store enforces is on the *raw*
question text (`INSERT OR IGNORE` under the `questions.question UNIQUE`
constraint): inserting a question whose exact text is already present in
any group is a no-op, but the same *normalized* form may appear in several
groups (`C4_counterexample`).  The first-writer-wins dedup happens in the
trigger index instead: `norm_map` maps each non-empty normalized trigger to
the `(groupId, original text)` pair of the *first* stored row carrying that
normalized form, and is therefore functional. -/
theorem C4_theorem :
    (∀ qrows (q n : String) (gid : Nat), (∃ r ∈ qrows, r.question = q) →
      insertQ qrows q n gid = qrows) ∧
      (∀ qrows (k : String) (g : Nat) (q : String),
        ((k, g, q) ∈ normMapList qrows ↔
          k ≠ "" ∧ qrows.find? (fun r => r.qnorm = k) = some ⟨q, k, g⟩)) ∧
      (∀ qrows (k : String) (g : Nat) (q : String) (g' : Nat) (q' : String),
        (k, g, q) ∈ normMapList qrows → (k, g', q') ∈ normMapList qrows →
        g = g' ∧ q = q') := by
  have hmem : ∀ qrows (k : String) (g : Nat) (q : String),
      ((k, g, q) ∈ normMapList qrows ↔
        k ≠ "" ∧ qrows.find? (fun r => r.qnorm = k) = some ⟨q, k, g⟩) := by
    intro qrows k g q
    unfold normMapList
    rw [normMap_fold_mem qrows [] k g q]
    simp
  refine ⟨?_, hmem, ?_⟩
  · rintro qrows q n gid ⟨r, hr, hq⟩
    unfold insertQ
    rw [if_pos (List.any_eq_true.mpr ⟨r, hr, by simp [hq]⟩)]
  · intro qrows k g q g' q' h1 h2
    obtain ⟨-, hf1⟩ := (hmem qrows k g q).mp h1
    obtain ⟨-, hf2⟩ := (hmem qrows k g' q').mp h2
    rw [hf1] at hf2
    have hr := Option.some.inj hf2
    simp only [QRow.mk.injEq] at hr
    exact ⟨hr.2.2, hr.1⟩

/-- Closed witness for `C4_theorem` at a concrete row list: the raw
duplicate is ignored, and the index maps `"hi"` to the first-seen pair. -/
theorem C4_theorem_witness :
    insertQ [⟨"hi", "hi", 1⟩] "hi" "hi" 2 = [⟨"hi", "hi", 1⟩] ∧
      ((("hi" : String), 1, ("Hi!" : String)) ∈
        normMapList [⟨"Hi!", "hi", 1⟩, ⟨"hi", "hi", 2⟩]) := by
  constructor
  · exact C4_theorem.1 [⟨"hi", "hi", 1⟩] "hi" "hi" 2 ⟨⟨"hi", "hi", 1⟩, by simp, rfl⟩
  · exact (C4_theorem.2.1 [⟨"Hi!", "hi", 1⟩, ⟨"hi", "hi", 2⟩] "hi" 1 "Hi!").mpr
      ⟨by decide, by decide⟩

/-! ## Claim C8 -/

theorem scoreLe_trans (p q r : Nat × Nat) (h1 : scoreLe p q = true)
    (h2 : scoreLe q r = true) : scoreLe p r = true := by
  unfold scoreLe at h1 h2 ⊢
  by_cases hr : r.2 = 0
  · rw [if_pos hr]
  · rw [if_neg hr] at h2 ⊢
    by_cases hq : q.2 = 0
    · rw [if_pos hq] at h2
      exact absurd h2 Bool.false_ne_true
    · rw [if_neg hq] at h1 h2
      by_cases hp : p.2 = 0
      · rw [if_pos hp] at h1
        exact absurd h1 Bool.false_ne_true
      · rw [if_neg hp] at h1 ⊢
        rw [decide_eq_true_eq] at h1 h2 ⊢
        have hD : p.1 * r.2 * q.2 ≤ r.1 * p.2 * q.2 := by
          calc p.1 * r.2 * q.2 = p.1 * q.2 * r.2 := by ring
            _ ≤ q.1 * p.2 * r.2 := mul_le_mul_right' h1 r.2
            _ = q.1 * r.2 * p.2 := by ring
            _ ≤ r.1 * q.2 * p.2 := mul_le_mul_right' h2 p.2
            _ = r.1 * p.2 * q.2 := by ring
        exact Nat.le_of_mul_le_mul_right hD (Nat.pos_of_ne_zero hq)

theorem scoreLe_total (p q : Nat × Nat) :
    (scoreLe p q || scoreLe q p) = true := by
  unfold scoreLe
  by_cases hq : q.2 = 0
  · simp [hq]
  · by_cases hp : p.2 = 0
    · simp [hp, hq]
    · rcases Nat.le_total (p.1 * q.2) (q.1 * p.2) with h | h <;> simp [hp, hq, h]

theorem scoreLe_eq_pairLe (p q : Nat × Nat) (hp : p.2 ≠ 0) (hq : q.2 ≠ 0) :
    scoreLe p q = pairLe p q := by
  unfold scoreLe pairLe
  rw [if_neg hq, if_neg hp]

theorem bestScore_den_pos (q sc : String) (g : GroupView) :
    0 < (bestScore q sc g).2 := by
  have hstep : ∀ p r : Nat × Nat, 0 < p.2 → 0 < r.2 →
      0 < (if pairLt p r = true then r else p).2 := by
    intro p r hp hr
    split <;> assumption
  have hfold : ∀ (l : List String) (p : Nat × Nat), 0 < p.2 →
      0 < (l.foldl (fun acc i =>
        if pairLt acc (similarityPair q i) = true then similarityPair q i
        else acc) p).2 := by
    intro l
    induction l with
    | nil => intro p hp; exact hp
    | cons x xs ih =>
      intro p hp
      rw [List.foldl_cons]
      exact ih _ (hstep _ _ hp (similarityPair_den_pos _ _))
  simp only [bestScore]
  by_cases h1 : sc = "group"
  · rw [if_pos h1]
    exact hstep _ _ (by decide) (similarityPair_den_pos _ _)
  · rw [if_neg h1]
    by_cases h2 : sc = "input"
    · rw [if_pos h2]
      exact hfold _ _ (by decide)
    · rw [if_neg h2]
      by_cases h3 : sc = "output"
      · rw [if_pos h3]
        exact hfold _ _ (by decide)
      · rw [if_neg h3]
        exact hfold _ _
          (hfold _ _ (hstep _ _ (by decide) (similarityPair_den_pos _ _)))

/-- C8, counterexample.  For the query `"abcdefghij"` against a group named
`"ab"` in the `group` scope, the best score is `4/12 = 1/3`, which clears
the claimed group-scope threshold `0.25` — yet the group is filtered out,
because the code applies the single `THRESHOLD = 0.4` to every scope. -/
theorem C8_counterexample :
    apiGroupsFilter (createGroup emptyStore "ab" .null (.list ["out"])).1
        (some "abcdefghij") (some "group") = .ok [] ∧
      bestScore "abcdefghij" "group"
        (groupView (createGroup emptyStore "ab" .null (.list ["out"])).1
          ⟨1, some "ab"⟩) = (4, 12) ∧
      pairLe (1, 4) (4, 12) = true ∧
      (getAllGroups (createGroup emptyStore "ab" .null (.list ["out"])).1).length
        = 1 := by
  refine ⟨by decide, by decide, by decide, by decide⟩

/-- C8 (amended): group search with a non-empty query scores every group in
the chosen scope and returns exactly the groups whose best-in-scope score
reaches the *single* threshold `0.4` — the same for the `group`, `input`,
`output` and `all` scopes — sorted by descending score. -/
theorem C8_theorem (s : Store) (qf scope : String) (hq : pyStripS qf ≠ "") :
    ∃ res : List GroupView,
      apiGroupsFilter s (some qf) (some scope) = .ok res ∧
      (∀ g ∈ res, (2 : ℚ) / 5 ≤ bestScoreQ (pyStripS qf) (toLowerStr scope) g) ∧
      (∀ g ∈ getAllGroups s,
        (2 : ℚ) / 5 ≤ bestScoreQ (pyStripS qf) (toLowerStr scope) g → g ∈ res) ∧
      List.Pairwise (fun g h => bestScoreQ (pyStripS qf) (toLowerStr scope) h ≤
        bestScoreQ (pyStripS qf) (toLowerStr scope) g) res := by
  refine ⟨((List.insertionSort (fun x y => scoreLe y.1 x.1 = true)
      ((getAllGroups s).map
        (fun g => (bestScore (pyStripS qf) (toLowerStr scope) g, g)))).filter
      (fun x => pairLe (2, 5) x.1)).map (fun x => x.2), ?_, ?_, ?_, ?_⟩
  · simp only [apiGroupsFilter, Option.getD_some]
    rw [if_neg hq]
  · intro g hg
    obtain ⟨x, hx, hxg⟩ := List.mem_map.mp hg
    obtain ⟨hxs, hxp⟩ := List.mem_filter.mp hx
    obtain ⟨g0, hg0, hx0⟩ :=
      List.mem_map.mp ((List.mem_insertionSort _).mp hxs)
    subst hx0
    have hg0g : g0 = g := hxg
    subst hg0g
    rw [pairLe_iff_q _ _ (by norm_num) (bestScore_den_pos _ _ _)] at hxp
    unfold bestScoreQ
    exact le_trans (by norm_num) hxp
  · intro g hgAll hscore
    unfold bestScoreQ at hscore
    have hpass : pairLe (2, 5) (bestScore (pyStripS qf) (toLowerStr scope) g)
        = true := by
      rw [pairLe_iff_q _ _ (by norm_num) (bestScore_den_pos _ _ _)]
      exact le_trans (by norm_num) hscore
    exact List.mem_map.mpr ⟨_, List.mem_filter.mpr
      ⟨(List.mem_insertionSort _).mpr (List.mem_map_of_mem _ hgAll), hpass⟩, rfl⟩
  · haveI instT : IsTrans ((Nat × Nat) × GroupView)
        (fun x y => scoreLe y.1 x.1 = true) :=
      ⟨fun a b c hab hbc => scoreLe_trans _ _ _ hbc hab⟩
    haveI instTot : IsTotal ((Nat × Nat) × GroupView)
        (fun x y => scoreLe y.1 x.1 = true) :=
      ⟨fun a b => Bool.or_eq_true_iff.mp (scoreLe_total b.1 a.1)⟩
    have hs := List.sorted_insertionSort (fun x y => scoreLe y.1 x.1 = true)
      ((getAllGroups s).map
        (fun g => (bestScore (pyStripS qf) (toLowerStr scope) g, g)))
    have hsf : List.Pairwise (fun x y => scoreLe y.1 x.1 = true)
        ((List.insertionSort (fun x y => scoreLe y.1 x.1 = true)
          ((getAllGroups s).map
            (fun g => (bestScore (pyStripS qf) (toLowerStr scope) g, g)))).filter
          (fun x => pairLe (2, 5) x.1)) :=
      List.Pairwise.sublist (List.filter_sublist _) hs
    rw [List.pairwise_map]
    refine List.Pairwise.imp_of_mem ?_ hsf
    intro a b ha hb hR
    obtain ⟨ga, hga, ha2⟩ :=
      List.mem_map.mp ((List.mem_insertionSort _).mp (List.mem_filter.mp ha).1)
    obtain ⟨gb, hgb, hb2⟩ :=
      List.mem_map.mp ((List.mem_insertionSort _).mp (List.mem_filter.mp hb).1)
    subst ha2
    subst hb2
    rw [scoreLe_eq_pairLe _ _
        (Nat.pos_iff_ne_zero.mp (bestScore_den_pos _ _ _))
        (Nat.pos_iff_ne_zero.mp (bestScore_den_pos _ _ _)),
      pairLe_iff_q _ _ (bestScore_den_pos _ _ _) (bestScore_den_pos _ _ _)] at hR
    exact hR

/-- Closed witness for `C8_theorem` at a concrete store and query. -/
theorem C8_theorem_witness :
    ∃ res : List GroupView,
      apiGroupsFilter (createGroup emptyStore "hello" .null (.list ["o"])).1
          (some "hello") (some "group") = .ok res ∧
      (∀ g ∈ res, (2 : ℚ) / 5 ≤ bestScoreQ (pyStripS "hello") (toLowerStr "group") g) ∧
      (∀ g ∈ getAllGroups (createGroup emptyStore "hello" .null (.list ["o"])).1,
        (2 : ℚ) / 5 ≤ bestScoreQ (pyStripS "hello") (toLowerStr "group") g →
        g ∈ res) ∧
      List.Pairwise (fun g h =>
        bestScoreQ (pyStripS "hello") (toLowerStr "group") h ≤
          bestScoreQ (pyStripS "hello") (toLowerStr "group") g) res :=
  C8_theorem (createGroup emptyStore "hello" .null (.list ["o"])).1 "hello" "group"
    (by decide)

/-! ## Claim C1 -/

theorem pairLe_refl (p : Nat × Nat) : pairLe p p = true := by
  simp [pairLe]

theorem pairLt_le (p q : Nat × Nat) (h : pairLt p q = true) : pairLe p q = true := by
  simp only [pairLt, decide_eq_true_eq] at h
  simp only [pairLe, decide_eq_true_eq]
  exact Nat.le_of_lt h

theorem pairEq_le (p q : Nat × Nat) (h : pairEq p q = true) : pairLe p q = true := by
  simp only [pairEq, decide_eq_true_eq] at h
  simp only [pairLe, decide_eq_true_eq]
  exact Nat.le_of_eq h

theorem pairNotLt_le (p q : Nat × Nat) (h : ¬ pairLt p q = true) :
    pairLe q p = true := by
  simp only [pairLt, decide_eq_true_eq] at h
  simp only [pairLe, decide_eq_true_eq]
  omega

theorem pairNotLe_lt (p q : Nat × Nat) (h : ¬ pairLe p q = true) :
    pairLt q p = true := by
  simp only [pairLe, decide_eq_true_eq] at h
  simp only [pairLt, decide_eq_true_eq]
  omega

theorem pairLe_trans (p q r : Nat × Nat) (hp : 0 < p.2) (hq : 0 < q.2)
    (hr : 0 < r.2) (h1 : pairLe p q = true) (h2 : pairLe q r = true) :
    pairLe p r = true := by
  rw [pairLe_iff_q _ _ hp hq] at h1
  rw [pairLe_iff_q _ _ hq hr] at h2
  rw [pairLe_iff_q _ _ hp hr]
  exact le_trans h1 h2

theorem scorePair_den_pos (word x : String) : 0 < (scorePair word x).2 :=
  ratioPair_den_pos _ _

/-- The `max`-scan of `get_close_matches`: the result is the seed or a list
member, its score dominates the seed's, and it dominates every member's. -/
theorem foldBest_spec (word : String) :
    ∀ (cs : List String) (c0 : String),
      ((cs.foldl (fun best x =>
          if pairLt (scorePair word best) (scorePair word x) ||
              (pairEq (scorePair word best) (scorePair word x) && strLtB best x)
          then x else best) c0 = c0 ∨
        cs.foldl (fun best x =>
          if pairLt (scorePair word best) (scorePair word x) ||
              (pairEq (scorePair word best) (scorePair word x) && strLtB best x)
          then x else best) c0 ∈ cs) ∧
       pairLe (scorePair word c0) (scorePair word (cs.foldl (fun best x =>
          if pairLt (scorePair word best) (scorePair word x) ||
              (pairEq (scorePair word best) (scorePair word x) && strLtB best x)
          then x else best) c0)) = true ∧
       ∀ x ∈ cs, pairLe (scorePair word x) (scorePair word (cs.foldl (fun best x =>
          if pairLt (scorePair word best) (scorePair word x) ||
              (pairEq (scorePair word best) (scorePair word x) && strLtB best x)
          then x else best) c0)) = true) := by
  intro cs
  induction cs with
  | nil =>
    intro c0
    exact ⟨Or.inl rfl, pairLe_refl _, by simp⟩
  | cons y ys ih =>
    intro c0
    simp only [List.foldl_cons]
    obtain ⟨ihm, ihle, ihall⟩ :=
      ih (if pairLt (scorePair word c0) (scorePair word y) ||
            (pairEq (scorePair word c0) (scorePair word y) && strLtB c0 y)
          then y else c0)
    have hstep : pairLe (scorePair word c0)
        (scorePair word (if pairLt (scorePair word c0) (scorePair word y) ||
            (pairEq (scorePair word c0) (scorePair word y) && strLtB c0 y)
          then y else c0)) = true := by
      by_cases hcond : (pairLt (scorePair word c0) (scorePair word y) ||
          (pairEq (scorePair word c0) (scorePair word y) && strLtB c0 y)) = true
      · rw [if_pos hcond]
        rcases Bool.or_eq_true_iff.mp hcond with hlt | hand
        · exact pairLt_le _ _ hlt
        · exact pairEq_le _ _ (Bool.and_eq_true_iff.mp hand).1
      · rw [if_neg hcond]
        exact pairLe_refl _
    refine ⟨?_, ?_, ?_⟩
    · rcases ihm with he | hm
      · rw [he]
        by_cases hcond : (pairLt (scorePair word c0) (scorePair word y) ||
            (pairEq (scorePair word c0) (scorePair word y) && strLtB c0 y)) = true
        · rw [if_pos hcond]
          exact Or.inr (List.mem_cons_self _ _)
        · rw [if_neg hcond]
          exact Or.inl rfl
      · exact Or.inr (List.mem_cons_of_mem _ hm)
    · exact pairLe_trans _ _ _ (scorePair_den_pos _ _) (scorePair_den_pos _ _)
        (scorePair_den_pos _ _) hstep ihle
    · intro x hx
      rcases List.mem_cons.mp hx with hxy | hxs
      · subst hxy
        by_cases hcond : (pairLt (scorePair word c0) (scorePair word x) ||
            (pairEq (scorePair word c0) (scorePair word x) && strLtB c0 x)) = true
        · rw [if_pos hcond] at ihle ⊢
          exact ihle
        · rw [if_neg hcond] at ihle ⊢
          have hnlt : ¬ pairLt (scorePair word c0) (scorePair word x) = true := by
            intro hl
            exact hcond (by rw [hl]; rfl)
          exact pairLe_trans _ _ _ (scorePair_den_pos _ _) (scorePair_den_pos _ _)
            (scorePair_den_pos _ _) (pairNotLt_le _ _ hnlt) ihle
      · exact ihall x hxs

/-- `get_close_matches(word, poss, n=1, cutoff)` returns nothing exactly
when no possibility reaches the cutoff. -/
theorem getCloseMatches1_none (word : String) (poss : List String)
    (c : Nat × Nat) :
    getCloseMatches1 word poss c = none ↔
      ∀ x ∈ poss, ¬ pairLe c (scorePair word x) = true := by
  unfold getCloseMatches1
  rcases hf : poss.filter (fun x => pairLe c (scorePair word x)) with _ | ⟨y, ys⟩
  · constructor
    · intro _ x hx hpx
      have hmem : x ∈ poss.filter (fun x => pairLe c (scorePair word x)) :=
        List.mem_filter.mpr ⟨hx, hpx⟩
      rw [hf] at hmem
      simp at hmem
    · intro _
      rfl
  · constructor
    · intro h
      simp at h
    · intro hall
      exfalso
      have hy : y ∈ poss.filter (fun x => pairLe c (scorePair word x)) := by
        rw [hf]
        exact List.mem_cons_self _ _
      obtain ⟨hy1, hy2⟩ := List.mem_filter.mp hy
      exact hall y hy1 hy2

/-- The returned possibility is a member, reaches the cutoff, and its score
dominates every possibility's score. -/
theorem getCloseMatches1_some (word : String) (poss : List String)
    (c : Nat × Nat) (hc : 0 < c.2) (b : String)
    (h : getCloseMatches1 word poss c = some b) :
    b ∈ poss ∧ pairLe c (scorePair word b) = true ∧
      ∀ x ∈ poss, pairLe (scorePair word x) (scorePair word b) = true := by
  unfold getCloseMatches1 at h
  rcases hf : poss.filter (fun x => pairLe c (scorePair word x)) with _ | ⟨y, ys⟩
  · rw [hf] at h
    simp at h
  · rw [hf] at h
    obtain ⟨hm, hle, hall⟩ := foldBest_spec word ys y
    have hb := Option.some.inj h
    have hbf : b ∈ poss.filter (fun x => pairLe c (scorePair word x)) := by
      rw [hf]
      rcases hm with he | hmm
      · rw [← hb, he]
        exact List.mem_cons_self _ _
      · rw [← hb]
        exact List.mem_cons_of_mem _ hmm
    obtain ⟨hbp, hbc⟩ := List.mem_filter.mp hbf
    refine ⟨hbp, hbc, ?_⟩
    intro x hx
    by_cases hpx : pairLe c (scorePair word x) = true
    · have hxf : x ∈ poss.filter (fun x => pairLe c (scorePair word x)) :=
        List.mem_filter.mpr ⟨hx, hpx⟩
      rw [hf] at hxf
      rcases List.mem_cons.mp hxf with hxy | hxs
      · rw [hxy, ← hb]
        exact hle
      · rw [← hb]
        exact hall x hxs
    · have hxc : pairLt (scorePair word x) c = true := pairNotLe_lt _ _ hpx
      exact pairLe_trans _ _ _ (scorePair_den_pos _ _) hc (scorePair_den_pos _ _)
        (pairLt_le _ _ hxc) hbc

theorem cutoff_le_iff (word x : String) :
    pairLe (1, 2) (scorePair word x) = true ↔
      (1 : ℚ) / 2 ≤ scoreOf word x := by
  rw [pairLe_iff_q _ _ (by norm_num) (scorePair_den_pos word x)]
  unfold scoreOf ratioQ scorePair
  norm_num

theorem cutoff_lt_iff (word x : String) :
    pairLt (scorePair word x) (1, 2) = true ↔
      scoreOf word x < (1 : ℚ) / 2 := by
  rw [pairLt_iff_q _ _ (scorePair_den_pos word x) (by norm_num)]
  unfold scoreOf ratioQ scorePair
  norm_num

theorem score_le_iff (word x y : String) :
    pairLe (scorePair word x) (scorePair word y) = true ↔
      scoreOf word x ≤ scoreOf word y := by
  rw [pairLe_iff_q _ _ (scorePair_den_pos word x) (scorePair_den_pos word y)]
  unfold scoreOf ratioQ scorePair
  rfl

/-- C1: for a message that is non-empty after stripping, the chat pipeline
replies `ok` with the per-piece replies joined by a blank line in document
order; the per-piece matches list the pieces in order; and each piece is
matched to a trigger of maximal similarity score when that score reaches
the cutoff `0.5`, or left unmatched (resolving to the fixed fallback
sentence) exactly when the trigger index is empty or every trigger scores
below `0.5`. -/
theorem C1_theorem (s : Store) (m : String) (pick : Nat → Nat)
    (hmsg : pyStripS m ≠ "") :
    apiChat s (some m) pick =
      .ok (String.intercalate "\n\n"
        ((findBestMatches s (pyStripS m)).enum.map (fun pr =>
          match pr.2.2 with
          | some (gid, _) =>
            if gid ≠ 0 then
              match getRandomAnswerForGroup s gid (pick pr.1) with
              | some a => if a = "" then noAnswerMsg else a
              | none => noAnswerMsg
            else unmatchedMsg
          | none => unmatchedMsg))) ∧
      (findBestMatches s (pyStripS m)).map Prod.fst = piecesOf (pyStripS m) ∧
      (∀ piece r, (piece, r) ∈ findBestMatches s (pyStripS m) →
        ((r = none ↔
          normMapList s.qrows = [] ∨
          ∀ e ∈ normMapList s.qrows,
            scoreOf (normalize piece) e.1 < 1 / 2) ∧
        (∀ gid q, r = some (gid, q) →
          ∃ k, (k, gid, q) ∈ normMapList s.qrows ∧
            (1 : ℚ) / 2 ≤ scoreOf (normalize piece) k ∧
            ∀ e ∈ normMapList s.qrows,
              scoreOf (normalize piece) e.1 ≤ scoreOf (normalize piece) k))) := by
  refine ⟨?_, ?_, ?_⟩
  · simp only [apiChat, Option.getD_some]
    rw [if_neg hmsg]
  · unfold findBestMatches
    rw [if_neg hmsg, List.map_map]
    conv_rhs => rw [← List.map_id (piecesOf (pyStripS m))]
    apply List.map_congr_left
    intro piece hp
    dsimp only [Function.comp]
    split
    · rfl
    · split <;> rfl
  · intro piece r hmem
    unfold findBestMatches at hmem
    rw [if_neg hmsg] at hmem
    obtain ⟨p0, hp0, heq⟩ := List.mem_map.mp hmem
    by_cases hke :
        ((normMapList s.qrows).map (fun e => e.1)).isEmpty = true
    · rw [if_pos hke] at heq
      have hpe : p0 = piece := congrArg Prod.fst heq
      have hre : (none : Option (Nat × String)) = r := congrArg Prod.snd heq
      have hnm : normMapList s.qrows = [] :=
        List.map_eq_nil.mp (List.isEmpty_iff.mp hke)
      constructor
      · rw [← hre]
        simp [hnm]
      · intro gid q hr
        rw [← hre] at hr
        exact absurd hr (by simp)
    · rw [if_neg hke] at heq
      rcases hgc : getCloseMatches1 (normalize p0)
          ((normMapList s.qrows).map (fun e => e.1)) (1, 2) with _ | bestKey
      · rw [hgc] at heq
        have hpe : p0 = piece := congrArg Prod.fst heq
        have hre : (none : Option (Nat × String)) = r := congrArg Prod.snd heq
        subst hpe
        have hall := (getCloseMatches1_none _ _ _).mp hgc
        constructor
        · rw [← hre]
          refine iff_of_true rfl (Or.inr ?_)
          intro e he
          have hxk := hall e.1 (List.mem_map_of_mem _ he)
          have hlt := pairNotLe_lt _ _ hxk
          exact (cutoff_lt_iff _ _).mp hlt
        · intro gid q hr
          rw [← hre] at hr
          exact absurd hr (by simp)
      · rw [hgc] at heq
        dsimp only at heq
        obtain ⟨hbp, hbc, hbm⟩ :=
          getCloseMatches1_some _ _ _ (by norm_num) _ hgc
        obtain ⟨e0, he0m, he0p⟩ := List.mem_map.mp hbp
        have hfind : ((normMapList s.qrows).find?
            (fun e => e.1 = bestKey)).isSome = true :=
          List.find?_isSome.mpr ⟨e0, he0m, by simp [he0p]⟩
        rcases hfd : (normMapList s.qrows).find? (fun e => e.1 = bestKey)
          with _ | efound
        · rw [hfd] at hfind
          simp at hfind
        · rw [hfd] at heq
          have hpe : p0 = piece := congrArg Prod.fst heq
          have hre : some efound.2 = r := congrArg Prod.snd heq
          subst hpe
          have hefm : efound ∈ normMapList s.qrows :=
            List.mem_of_find?_eq_some hfd
          have hefk : efound.1 = bestKey := by
            have := List.find?_some hfd
            simpa using this
          constructor
          · rw [← hre]
            constructor
            · intro hcon
              exact absurd hcon (by simp)
            · rintro (hnil | hlow)
              · rw [hnil] at hefm
                simp at hefm
              · have hlow2 := hlow efound hefm
                rw [hefk] at hlow2
                rw [cutoff_le_iff] at hbc
                exact absurd hbc (not_le_of_lt hlow2)
          · intro gid q hr
            rw [← hre] at hr
            have hev : efound.2 = (gid, q) := Option.some.inj hr
            refine ⟨bestKey, ?_, (cutoff_le_iff _ _).mp hbc, ?_⟩
            · rw [show (bestKey, gid, q) = efound from by rw [← hefk, ← hev]]
              exact hefm
            · intro e he
              exact (score_le_iff _ _ _).mp (hbm e.1 (List.mem_map_of_mem _ he))

/-- Closed witness for `C1_theorem`: a store with the trigger "hello"
(answer "hi there") and the two-piece message "hello. banana!" — the first
piece matches, the second resolves to the fallback, and the replies are
joined by a blank line in order. -/
theorem C1_theorem_witness :
    pyStripS "hello. banana!" ≠ "" ∧
      apiChat (createGroup emptyStore "g" (.list ["hello"]) (.list ["hi there"])).1
          (some "hello. banana!") (fun _ => 0) =
        .ok "hi there\n\nI don't know that yet. Add it in Q&A." ∧
      findBestMatches
          (createGroup emptyStore "g" (.list ["hello"]) (.list ["hi there"])).1
          (pyStripS "hello. banana!") =
        [("hello.", some (1, "hello")), ("banana!", none)] ∧
      (findBestMatches
          (createGroup emptyStore "g" (.list ["hello"]) (.list ["hi there"])).1
          (pyStripS "hello. banana!")).map Prod.fst =
        piecesOf (pyStripS "hello. banana!") := by
  refine ⟨by decide, by decide, by decide,
    (C1_theorem (createGroup emptyStore "g" (.list ["hello"]) (.list ["hi there"])).1
      "hello. banana!" (fun _ => 0) (by decide)).2.1⟩

end AlgoInfo
